import Mathlib

/-!
weisbartb/stack : error tracing over an explicit heap

Go errors are reference values: `*Error`, `*withStack`, `*withMessage` and the
other error types are pointers, and `Trace` / `Wrap` mutate the `*Error` they
find in a chain.  The embedding therefore passes a heap explicitly.  An address
is an index into the heap; an `error` interface value is the nil interface, a
pointer to a heap object, the typed nil pointer `(*Error)(nil)` (what
`var err error = stack.Trace(nil)` holds), or a value of an uncomparable type,
on which `==` can panic.  Heap objects of the `custom` kind are error types with
an `As` method or an `Unwrap() []error` method (the result of `errors.Join`),
which `errors.As` honours and `GetTrace` does not.  Go `int` sums wrap at 64 bits.

Loops that walk an unwrap chain (`GetTrace`, `errors.As`, `Error.Is`, the
`Error()` method) take a fuel argument; running out of fuel is the fault
`timeout`, a Go panic is the fault `panic`.

"The unwrap chain of `err`" is `unwrapChain h n err = some l`: the list `l` of
the errors `err`, `err.Unwrap()`, ... exists when the walk ends within the fuel
`n`, no `Unwrap()` on the way panics (no typed nil `*Error`), and every error on
the way is a pointer to an error of a plain type.  The theorems give the calls any fuel
from `n` on, so their results are `ok` values, never `timeout`.  The invariant
of the data model, at most one Traced Error per chain, is `tracedCount h l ≤ 1`.
-/

namespace Stack

/-- Go type `ErrorKVP` of error.go: a diagnostic entry.  The `any` value is kept as text. -/
structure ErrorKVP where
  Key : String
  Value : String
deriving DecidableEq, Repr

/-- Go slice of diagnostic entries (`kvpList`, `[]ErrorKVP`): `none` is the nil slice. -/
abbrev kvpList := Option (List ErrorKVP)

/-- Go type `PCFrame uintptr` of stack.go. -/
structure PCFrame where
  raw : Nat
deriving DecidableEq, Repr

/-- Go type `MarshallableStack`: `none` is the nil slice. -/
abbrev MarshallableStack := Option (List PCFrame)

/-- A value of the Go interface `error`: the nil interface, the typed nil pointer
`(*Error)(nil)`, a pointer to a heap object, or a value that is not a pointer and whose
dynamic type `typ` is not comparable (a struct with a slice field, say), with its text. -/
inductive ErrVal where
  | nil
  | nilError
  | ptr (addr : Nat)
  | uncomparable (typ : Nat) (msg : String)
deriving DecidableEq, Repr

/-- Go struct `Error` of error.go (the Traced Error). -/
structure Error where
  error : ErrVal
  extraData : kvpList
  stack : MarshallableStack
deriving DecidableEq, Repr

/-- Heap objects: the `Error` of this package, the two wrapper types that
`errors.Wrap` of github.com/pkg/errors allocates, and any other error type,
described by its text and by the optional interfaces it implements
(`unwrap = none`: no `Unwrap() error` method; `stackTrace = none`: no
`StackTrace()` method).  `foreign` are the types with neither an `As(any) bool` method
nor an `Unwrap() []error` method; `custom` are the types that may have them:
`unwrapAll` is what `Unwrap() []error` returns (as for the result of `errors.Join`), and
`asTarget = some p` is an `As` method that, asked for a `*Error`, sets it to `p` and
returns true (`asTarget = none`: no such method, or it returns false). -/
inductive Obj where
  | traced (e : Error)
  | withStack (error : ErrVal) (st : List Nat)
  | withMessage (cause : ErrVal) (msg : String)
  | foreign (msg : String) (unwrap : Option ErrVal) (stackTrace : Option (List Nat))
  | custom (msg : String) (unwrap : Option ErrVal) (unwrapAll : Option (List ErrVal))
      (stackTrace : Option (List Nat)) (asTarget : Option (Option Nat))
deriving DecidableEq, Repr

/-- The heap: the object at address `a` is `h[a]?`. -/
abbrev Heap := List Obj

/-- Ways a call can fail to return: a Go panic, or the fuel of a loop ran out. -/
inductive Fault where
  | panic
  | timeout
deriving DecidableEq, Repr

/-- Result of a call. -/
abbrev Res (α : Type) := Except Fault α

deriving instance DecidableEq for Except

/-- Allocation of a new object: it gets the next free address. -/
def alloc (h : Heap) (o : Obj) : Heap × Nat := (h ++ [o], h.length)

/-- Go `const maxDepth = 32` of stack.go. -/
def maxDepth : Nat := 32

/-- Go `uintptr` arithmetic is modulo 2^64. -/
def uintptrMod : Nat := 2 ^ 64

/-- Go `func (f PCFrame) PC() uintptr { return uintptr(f) - 1 }`. -/
def PCFrame.PC (f : PCFrame) : Nat := (f.raw % uintptrMod + uintptrMod - 1) % uintptrMod

/-- Go `append(s, xs...)` on slices with nil: appending no element returns `s`
itself (nil stays nil), otherwise the result is a non-nil slice. -/
def goAppend {α : Type} (s : Option (List α)) (xs : Option (List α)) : Option (List α) :=
  match xs.getD [] with
  | [] => s
  | x :: rest => some (s.getD [] ++ x :: rest)

/-- The elements of a Go slice. -/
def elems {α : Type} (s : Option (List α)) : List α := s.getD []

/-- Type assertion `err.(unwrapper)`: does the dynamic type have `Unwrap() error`? -/
def isUnwrapper (h : Heap) : ErrVal → Bool
  | .nil => false
  | .nilError => true
  | .uncomparable _ _ => false
  | .ptr a =>
    match h[a]? with
    | some (.traced _) => true
    | some (.withStack _ _) => true
    | some (.withMessage _ _) => true
    | some (.foreign _ u _) => u.isSome
    | some (.custom _ u _ _ _) => u.isSome
    | none => false

/-- Method call `Unwrap()` on a value whose type has the method.
`(es *Error) Unwrap()` reads `es.error`, which panics on the nil pointer. -/
def callUnwrap (h : Heap) : ErrVal → Res ErrVal
  | .nil => .error .panic
  | .nilError => .error .panic
  | .uncomparable _ _ => .error .panic
  | .ptr a =>
    match h[a]? with
    | some (.traced e) => .ok e.error
    | some (.withStack inner _) => .ok inner
    | some (.withMessage cause _) => .ok cause
    | some (.foreign _ (some u) _) => .ok u
    | some (.foreign _ none _) => .error .panic
    | some (.custom _ (some u) _ _ _) => .ok u
    | some (.custom _ none _ _ _) => .error .panic
    | none => .error .panic

/-- Go `errors.Unwrap`: nil when the type has no `Unwrap() error` method. -/
def errorsUnwrap (h : Heap) (err : ErrVal) : Res ErrVal :=
  if isUnwrapper h err then callUnwrap h err else .ok .nil

/-- Type assertion `err.(stackTracer)`: does the dynamic type have `StackTrace()`? -/
def isStackTracer (h : Heap) : ErrVal → Bool
  | .nil => false
  | .nilError => true
  | .uncomparable _ _ => false
  | .ptr a =>
    match h[a]? with
    | some (.traced _) => true
    | some (.withStack _ _) => true
    | some (.withMessage _ _) => false
    | some (.foreign _ _ st) => st.isSome
    | some (.custom _ _ _ st _) => st.isSome
    | none => false

/-- Go `func (m MarshallableStack) StackTrace() errors.StackTrace` of stack.go. -/
def MarshallableStack.StackTrace (m : MarshallableStack) : Option (List Nat) :=
  match elems m with
  | [] => none
  | f :: rest => if f.PC = 0 then none else some ((f :: rest).map PCFrame.PC)

/-- Method call `StackTrace()` on a value whose type has the method. -/
def callStackTrace (h : Heap) : ErrVal → Res (Option (List Nat))
  | .nil => .error .panic
  | .nilError => .error .panic
  | .uncomparable _ _ => .error .panic
  | .ptr a =>
    match h[a]? with
    | some (.traced e) => .ok (MarshallableStack.StackTrace e.stack)
    | some (.withStack _ st) => .ok (some st)
    | some (.foreign _ _ (some st)) => .ok (some st)
    | some (.custom _ _ _ (some st) _) => .ok (some st)
    | _ => .error .panic

/-- Go `errors.As(err, &target)` with `target` of type `*Error`.
`none`: As returned false.  `some p`: As returned true and set the target to
the pointer `p` (`p = none` is the nil pointer, found in a typed nil).
At each error: a `*Error` is assigned to the target; otherwise an `As` method is asked;
otherwise the walk goes on through `Unwrap() error`, or, depth first, through the non-nil
errors of `Unwrap() []error`. -/
def errorsAs (h : Heap) : Nat → ErrVal → Res (Option (Option Nat))
  | 0, _ => .error .timeout
  | _ + 1, .nil => .ok none
  | _ + 1, .nilError => .ok (some none)
  | _ + 1, .uncomparable _ _ => .ok none
  | fuel + 1, .ptr a =>
    match h[a]? with
    | none => .error .panic
    | some (.traced _) => .ok (some (some a))
    | some (.custom _ unwrap unwrapAll _ asTarget) =>
      match asTarget with
      | some p => .ok (some p)
      | none =>
        match unwrap, unwrapAll with
        | some .nil, _ => .ok none
        | some next, _ => errorsAs h fuel next
        | none, some errs =>
          errs.foldl (fun found e =>
            match found with
            | .ok none => if e = .nil then .ok none else errorsAs h fuel e
            | r => r) (.ok none)
        | none, none => .ok none
    | some _ =>
      if isUnwrapper h (.ptr a) then
        match callUnwrap h (.ptr a) with
        | .error f => .error f
        | .ok .nil => .ok none
        | .ok next => errorsAs h fuel next
      else .ok none

/-- Go method `Error()` of an error value.  `*Error` and `*withStack` promote
the method of their embedded `error`; `*withMessage` returns
`msg + ": " + cause.Error()`. -/
def errorText (h : Heap) : Nat → ErrVal → Res String
  | 0, _ => .error .timeout
  | _ + 1, .nil => .error .panic
  | _ + 1, .nilError => .error .panic
  | _ + 1, .uncomparable _ msg => .ok msg
  | fuel + 1, .ptr a =>
    match h[a]? with
    | none => .error .panic
    | some (.traced e) => errorText h fuel e.error
    | some (.withStack inner _) => errorText h fuel inner
    | some (.withMessage cause msg) =>
      match errorText h fuel cause with
      | .ok t => .ok (msg ++ ": " ++ t)
      | .error f => .error f
    | some (.foreign msg _ _) => .ok msg
    | some (.custom msg _ _ _ _) => .ok msg

/-- Go `runtime.Callers(skip, pcs)` on the call stack `callers` (innermost
first, index 0 the frame of `runtime.Callers` itself): the slots filled.  `skip` is
a Go `int`; the unwinder only counts a positive skip down, so a skip below 0 skips
nothing. -/
def runtimeCallers (callers : List Nat) (skip : Int) (size : Nat) : List Nat :=
  (callers.drop skip.toNat).take size

/-- Go `int` arithmetic is 64-bit two's complement: a result outside
`[-2^63, 2^63)` wraps around. -/
def wrapInt (x : Int) : Int := (x + 2 ^ 63) % 2 ^ 64 - 2 ^ 63

/-- Go `GetStackProgramCounter(offset)` of stack.go, for an `int` `offset`; the result of
`make` is never nil.  The sum `offset+2` wraps as Go's `int` does. -/
def GetStackProgramCounter (callers : List Nat) (offset : Int) : List PCFrame :=
  (runtimeCallers callers (wrapInt (offset + 2)) maxDepth).map PCFrame.mk

/-- Go `MarshalStack()` of stack.go. -/
def MarshalStack (callers : List Nat) : List PCFrame :=
  GetStackProgramCounter callers 1

/-- Go slice expression `s[1:]` on a non-nil slice: panics when `len(s) = 0`. -/
def sliceFrom1 {α : Type} : List α → Res (Option (List α))
  | [] => .error .panic
  | _ :: rest => .ok (some rest)

/-- Go `errors.Wrap(err, message)` of github.com/pkg/errors: nil for nil,
otherwise a new `*withStack` around a new `*withMessage` around `err`. -/
def errorsWrap (h : Heap) (callers : List Nat) (err : ErrVal) (message : String) : Heap × ErrVal :=
  if err = .nil then (h, .nil)
  else
    let (h1, m) := alloc h (.withMessage err message)
    let (h2, w) := alloc h1 (.withStack (.ptr m) (runtimeCallers callers 3 maxDepth))
    (h2, .ptr w)

/-- The loop `for _, frame := range tErr.StackTrace() { out = append(out, PCFrame(frame)) }`
of `GetTrace`, starting from `var out MarshallableStack`. -/
def framesOf (st : Option (List Nat)) : MarshallableStack :=
  (elems st).foldl (fun out frame => goAppend out (some [PCFrame.mk frame])) none

/-- Go `GetTrace(err)` of error.go.  Returns the heap (a Traced Error may be
allocated for a foreign stack trace) and the `*Error` (`none` is nil). -/
def GetTrace (h : Heap) : Nat → ErrVal → Res (Heap × Option Nat)
  | 0, _ => .error .timeout
  | fuel + 1, err =>
    if err = .nil then .ok (h, none)
    else if isStackTracer h err then
      match errorsAs h (fuel + 1) err with
      | .error f => .error f
      | .ok (some internalError) => .ok (h, internalError)
      | .ok none =>
        match callStackTrace h err with
        | .error f => .error f
        | .ok st =>
          let (h1, a) := alloc h (.traced { error := err, extraData := none, stack := framesOf st })
          .ok (h1, some a)
    else if isUnwrapper h err then
      match callUnwrap h err with
      | .error f => .error f
      | .ok next => GetTrace h fuel next
    else .ok (h, none)

/-- Go `Trace(err, extra...)` of error.go.  `callers` is the call stack that
`runtime.Callers` sees when reached through `MarshalStack` from this call. -/
def Trace (h : Heap) (callers : List Nat) (fuel : Nat) (err : ErrVal) (extra : kvpList) :
    Res (Heap × Option Nat) :=
  if err = .nil then .ok (h, none)
  else
    match GetTrace h fuel err with
    | .error f => .error f
    | .ok (h1, some a) =>
      match h1[a]? with
      | some (.traced e) =>
        .ok (h1.set a (.traced { e with extraData := goAppend e.extraData extra }), some a)
      | _ => .error .panic
    | .ok (h1, none) =>
      match sliceFrom1 (MarshalStack callers) with
      | .error f => .error f
      | .ok s =>
        let (h2, a) := alloc h1 (.traced { error := err, extraData := extra, stack := s })
        .ok (h2, some a)

/-- Go `Wrap(err, message, extra...)` of error.go. -/
def Wrap (h : Heap) (callers : List Nat) (fuel : Nat) (err : ErrVal) (message : String)
    (extra : kvpList) : Res (Heap × Option Nat) :=
  if err = .nil then .ok (h, none)
  else
    match errorsAs h fuel err with
    | .error f => .error f
    | .ok (some none) => .error .panic
    | .ok (some (some a)) =>
      match h[a]? with
      | some (.traced e) =>
        let (h1, w) := errorsWrap h callers e.error message
        let e1 : Error := { e with error := w }
        let e2 : Error :=
          if 0 < (elems extra).length then { e1 with extraData := goAppend e1.extraData extra }
          else e1
        .ok (h1.set a (.traced e2), some a)
      | _ => .error .panic
    | .ok none =>
      let (h1, w) := errorsWrap h callers err message
      match sliceFrom1 (MarshalStack callers) with
      | .error f => .error f
      | .ok s =>
        let (h2, a) := alloc h1 (.traced { error := w, extraData := extra, stack := s })
        .ok (h2, some a)

/-- Go `HasTrace(err)` of error.go; `tmp.stack` panics when As found a typed nil. -/
def HasTrace (h : Heap) (fuel : Nat) (err : ErrVal) : Res Bool :=
  if err = .nil then .ok false
  else
    match errorsAs h fuel err with
    | .error f => .error f
    | .ok none => .ok false
    | .ok (some none) => .error .panic
    | .ok (some (some a)) =>
      match h[a]? with
      | some (.traced e) => .ok e.stack.isSome
      | _ => .error .panic

/-- Go `a == b` on two values of the interface `error`: equal dynamic types and equal
values; the comparison panics when both hold the same dynamic type and that type is not
comparable. -/
def goEq : ErrVal → ErrVal → Res Bool
  | .uncomparable t m, b =>
    match b with
    | .uncomparable t' _ => if t = t' then .error .panic else .ok false
    | _ => .ok (decide (ErrVal.uncomparable t m = b))
  | a, b => .ok (decide (a = b))

/-- The loop of `(es *Error) Is`, started at `err`. -/
def isLoop (h : Heap) (target : ErrVal) : Nat → ErrVal → Res Bool
  | 0, _ => .error .timeout
  | fuel + 1, err =>
    match goEq err target with
    | .error f => .error f
    | .ok true => .ok true
    | .ok false =>
      match errorsUnwrap h err with
      | .error f => .error f
      | .ok .nil => .ok false
      | .ok next => isLoop h target fuel next

/-- Go `func (es *Error) Is(target error) bool` of error.go; `es = none` is the nil receiver. -/
def Error.Is (h : Heap) (fuel : Nat) (es : Option Nat) (target : ErrVal) : Res Bool :=
  match es with
  | none => .ok false
  | some a =>
    if target = .nil then .ok false
    else
      match h[a]? with
      | some (.traced e) => isLoop h target fuel e.error
      | _ => .error .panic

/-- Conversion of a `*Error` to the interface `error`: the nil pointer becomes a typed nil. -/
def toErr : Option Nat → ErrVal
  | none => .nilError
  | some a => .ptr a

/-- The unwrap chain of `err`, for an error that is a plain chain: `err`,
`err.Unwrap()`, ... until nil or a value without `Unwrap() error`.  `none` when the walk
does not end within the fuel, when an `Unwrap()` call on the way panics (typed nil `*Error`,
dangling address), and when the walk meets an error that is not a plain link: a value of an
uncomparable type, or a `custom` object (an `As` method or `Unwrap() []error` make
`errors.As` see more than this chain). -/
def unwrapChain (h : Heap) : Nat → ErrVal → Option (List ErrVal)
  | 0, _ => none
  | _ + 1, .nil => some []
  | _ + 1, .nilError => none
  | _ + 1, .uncomparable _ _ => none
  | fuel + 1, .ptr a =>
    match h[a]? with
    | none => none
    | some (.custom _ _ _ _ _) => none
    | some _ =>
      if isUnwrapper h (.ptr a) then
        match callUnwrap h (.ptr a) with
        | .error _ => none
        | .ok next => (unwrapChain h fuel next).map (fun l => ErrVal.ptr a :: l)
      else some [.ptr a]

/-- Is `err` a (non-nil) pointer to a Traced Error? -/
def isTraced (h : Heap) : ErrVal → Bool
  | .ptr a =>
    match h[a]? with
    | some (.traced _) => true
    | _ => false
  | _ => false

/-- Number of Traced Errors in a chain. -/
def tracedCount (h : Heap) (l : List ErrVal) : Nat := l.countP (isTraced h)

/-- The value `Unwrap()` returns on an object, `none` when its type has no such method. -/
def objNext : Obj → Option ErrVal
  | .traced e => some e.error
  | .withStack inner _ => some inner
  | .withMessage cause _ => some cause
  | .foreign _ u _ => u
  | .custom _ u _ _ _ => u

/-- Is the object an `Error` of this package? -/
def isTracedObj : Obj → Bool
  | .traced _ => true
  | _ => false

/-- Is the object of a `custom` type? -/
def isCustom : Obj → Bool
  | .custom _ _ _ _ _ => true
  | _ => false

/-- Does the type of the object have a `StackTrace()` method? -/
def hasStackTrace : Obj → Bool
  | .traced _ => true
  | .withStack _ _ => true
  | .withMessage _ _ => false
  | .foreign _ _ st => st.isSome
  | .custom _ _ _ st _ => st.isSome

/-- The first Traced Error of a chain (its address), if any. -/
def firstTraced (h : Heap) : List ErrVal → Option Nat
  | [] => none
  | .ptr a :: rest => if isTraced h (.ptr a) then some a else firstTraced h rest
  | _ :: rest => firstTraced h rest

/-- Heaps `h` and `h'` hold at address `a` the same object, or two Traced Errors
with the same wrapped error (they may differ in entries and stack). -/
def SameLinks (h h' : Heap) (a : Nat) : Prop :=
  h'[a]? = h[a]? ∨
    ∃ e e', h[a]? = some (.traced e) ∧ h'[a]? = some (.traced e') ∧ e'.error = e.error

/-- The unwrap chain of `e` is defined and holds at most one Traced Error
(the invariant of the data model). -/
def AtMostOneTraced (h : Heap) (e : ErrVal) : Prop :=
  ∃ n l, unwrapChain h n e = some l ∧ tracedCount h l ≤ 1

/-- The unwrap chain of `e` is defined and holds exactly one Traced Error. -/
def OneTraced (h : Heap) (e : ErrVal) : Prop :=
  ∃ n l, unwrapChain h n e = some l ∧ tracedCount h l = 1

/-- The Go expression `Wrap(Wrap(err, a), b).Error()`, the pointers converted to `error`
on the way as Go does. -/
def wrapTwiceText (h : Heap) (callers : List Nat) (fuel : Nat) (err : ErrVal) (a b : String) :
    Res String :=
  match Wrap h callers fuel err a none with
  | .error f => .error f
  | .ok (h1, p1) =>
    match Wrap h1 callers fuel (toErr p1) b none with
    | .error f => .error f
    | .ok (h2, p2) => errorText h2 fuel (toErr p2)

/-- The Go expression `Trace(err, xs...).Error()`. -/
def traceText (h : Heap) (callers : List Nat) (fuel : Nat) (err : ErrVal) (xs : kvpList) :
    Res String :=
  match Trace h callers fuel err xs with
  | .error f => .error f
  | .ok (h1, p) => errorText h1 fuel (toErr p)

/-- The Go expression `HasTrace(Trace(err, xs...))`. -/
def hasTraceAfterTrace (h : Heap) (callers : List Nat) (fuel : Nat) (err : ErrVal)
    (xs : kvpList) : Res Bool :=
  match Trace h callers fuel err xs with
  | .error f => .error f
  | .ok (h1, p) => HasTrace h1 fuel (toErr p)

/-- States a client reaches from the heap `h0` and the error `e0` by calling `Trace` and
`Wrap` on the error it holds, and by wrapping that error in further layers that are not
Traced Errors (layers of plain types: `withStack`, `withMessage`, `foreign`).  The flag
tells whether the error held is one that `Trace` or `Wrap` just returned. -/
inductive Reach (h0 : Heap) (e0 : ErrVal) : Bool → Heap → ErrVal → Prop where
  | start : Reach h0 e0 false h0 e0
  | layer (ret : Bool) (h : Heap) (e : ErrVal) (o : Obj) :
      Reach h0 e0 ret h e → isTracedObj o = false → isCustom o = false →
      objNext o = some e → Reach h0 e0 false (h ++ [o]) (.ptr h.length)
  | trace (ret : Bool) (h : Heap) (e : ErrVal) (callers : List Nat) (fuel : Nat)
      (xs : kvpList) (h' : Heap) (p : Option Nat) :
      Reach h0 e0 ret h e → Trace h callers fuel e xs = .ok (h', p) →
      Reach h0 e0 true h' (toErr p)
  | wrap (ret : Bool) (h : Heap) (e : ErrVal) (callers : List Nat) (fuel : Nat)
      (m : String) (xs : kvpList) (h' : Heap) (p : Option Nat) :
      Reach h0 e0 ret h e → Wrap h callers fuel e m xs = .ok (h', p) →
      Reach h0 e0 true h' (toErr p)

/-! ## Frames, rendering and the structured form -/

/-- What the package reads of a Go `*runtime.Func`: `Name()` and `FileLine(pc)`. -/
structure Func where
  name : String
  fileLine : Nat → String × Int

/-- Go `runtime.FuncForPC`: `none` is the nil `*Func` of a location that does not resolve. -/
abbrev FuncTable := Nat → Option Func

/-- Go `func (f PCFrame) File() string` of stack.go. -/
def PCFrame.File (rt : FuncTable) (f : PCFrame) : String :=
  match rt f.PC with
  | none => "unknown"
  | some fn => (fn.fileLine f.PC).1

/-- Go `func (f PCFrame) Line() int` of stack.go. -/
def PCFrame.Line (rt : FuncTable) (f : PCFrame) : Int :=
  match rt f.PC with
  | none => 0
  | some fn => (fn.fileLine f.PC).2

/-- Go `func (f PCFrame) Name() string` of stack.go. -/
def PCFrame.Name (rt : FuncTable) (f : PCFrame) : String :=
  match rt f.PC with
  | none => "unknown"
  | some fn => fn.name

/-- Go `strconv.Itoa`: the decimal text of an `int`. -/
def strconvItoa (n : Int) : String := toString n

/-- Go `func (es *Error) TopLine() string` of error.go; reading `es.stack` panics on the
nil receiver. -/
def Error.TopLine (h : Heap) (rt : FuncTable) (es : Option Nat) : Res String :=
  match es with
  | none => .error .panic
  | some a =>
    match h[a]? with
    | some (.traced E) =>
      if (elems E.stack).length = 0 then .ok ""
      else
        match (elems E.stack)[0]? with
        | some f => .ok (f.File rt ++ ":" ++ strconvItoa (f.Line rt))
        | none => .error .panic
    | _ => .error .panic

/-- Go `func (m MarshallableStack) MarshalStringFrame(i int) string` of stack.go;
`m[i]` panics out of range. -/
def MarshallableStack.MarshalStringFrame (rt : FuncTable) (m : MarshallableStack) (i : Nat) :
    Res String :=
  match (elems m)[i]? with
  | some f => .ok (f.Name rt ++ " in " ++ f.File rt ++ ":" ++ strconvItoa (f.Line rt))
  | none => .error .panic

/-- The loop `for i := 0; i < len(m); i++` of `MarshalString`, with `k` iterations left
at index `i` and `out` written to the builder so far. -/
def marshalStringLoop (rt : FuncTable) (m : MarshallableStack) : Nat → Nat → String → Res String
  | 0, _, out => .ok out
  | k + 1, i, out =>
    match MarshallableStack.MarshalStringFrame rt m i with
    | .error f => .error f
    | .ok line => marshalStringLoop rt m k (i + 1) ((if 0 < i then out ++ "\n" else out) ++ line)

/-- Go `func (m MarshallableStack) MarshalString() string` of stack.go. -/
def MarshallableStack.MarshalString (rt : FuncTable) (m : MarshallableStack) : Res String :=
  marshalStringLoop rt m (elems m).length 0 ""

/-- The line of one frame as the specification words it: `<name> in <file>:<line>`. -/
def frameLine (rt : FuncTable) (f : PCFrame) : String :=
  f.Name rt ++ " in " ++ f.File rt ++ ":" ++ strconvItoa (f.Line rt)

/-- The object `PCFrame.MarshalZerologObject` writes: fields `caller`, `file`, `line`. -/
structure LogFrame where
  caller : String
  file : String
  line : Int
deriving DecidableEq, Repr

/-- One field written to a zerolog event: a string, an array of frame objects, or an
array of single-key objects (key and value of a diagnostic entry). -/
inductive LogField where
  | str (key : String) (val : String)
  | frames (key : String) (val : List LogFrame)
  | objects (key : String) (val : List (String × String))
deriving DecidableEq, Repr

/-- The key of a field. -/
def LogField.key : LogField → String
  | .str k _ => k
  | .frames k _ => k
  | .objects k _ => k

/-- Go `func (f PCFrame) MarshalZerologObject(e *zerolog.Event)` of stack.go. -/
def PCFrame.MarshalZerologObject (rt : FuncTable) (f : PCFrame) : LogFrame :=
  { caller := f.Name rt, file := f.File rt, line := f.Line rt }

/-- Go `func (m MarshallableStack) MarshalZerologArray(a *zerolog.Array)` of stack.go. -/
def MarshallableStack.MarshalZerologArray (rt : FuncTable) (m : MarshallableStack) :
    List LogFrame :=
  (elems m).map (PCFrame.MarshalZerologObject rt)

/-- Go `func (k kvpList) MarshalZerologArray(a *zerolog.Array)` of error.go: one object per
entry, each with the single field `Key: Value` of `ErrorKVP.MarshalZerologObject`. -/
def kvpList.MarshalZerologArray (k : kvpList) : List (String × String) :=
  (elems k).map (fun v => (v.Key, v.Value))

/-- Go `func (es *Error) MarshalZerologObject(e *zerolog.Event)` of error.go: the fields
written to the event, in order. -/
def Error.MarshalZerologObject (h : Heap) (rt : FuncTable) (fuel : Nat) (es : Option Nat) :
    Res (List LogField) :=
  match es with
  | none => .error .panic
  | some a =>
    match h[a]? with
    | some (.traced E) =>
      match errorText h fuel E.error with
      | .error f => .error f
      | .ok t =>
        let fields := [LogField.str "error" t,
          LogField.frames "stack" (MarshallableStack.MarshalZerologArray rt E.stack)]
        if E.extraData ≠ none then
          .ok (fields ++ [LogField.objects "extra" (kvpList.MarshalZerologArray E.extraData)])
        else .ok fields
    | _ => .error .panic

/-- The structured form of `Trace(err, xs...)`. -/
def traceLogFields (h : Heap) (rt : FuncTable) (callers : List Nat) (fuel : Nat) (err : ErrVal)
    (xs : kvpList) : Res (List LogField) :=
  match Trace h callers fuel err xs with
  | .error f => .error f
  | .ok (h1, p) => Error.MarshalZerologObject h1 rt fuel p

/-- The conversion `PCFrame(frame)` that `GetTrace` applies to a foreign stack trace, here
to the export `m.StackTrace()` of a stack. -/
def reimport (m : MarshallableStack) : MarshallableStack :=
  framesOf (MarshallableStack.StackTrace m)

/-! ## Sample heaps -/

/-- A function table that resolves the location 6 only. -/
def sampleTable : FuncTable :=
  fun pc => if pc = 6 then some { name := "main.run", fileLine := fun _ => ("main.go", 42) } else none

/-- A base error without any capability, at address 0. -/
def plainHeap : Heap := [.foreign "plain" none none]

/-- A foreign error with a stack trace of three locations (address 0), as `errors.New`
of github.com/pkg/errors makes, under a plain wrapping layer (address 1). -/
def foreignHeap : Heap :=
  [.foreign "base" none (some [11, 12, 13]), .foreign "outer: base" (some (.ptr 0)) none]


/-- The zero value `&stack.Error{}` at address 0, as in `TestHasTrace`. -/
def zeroHeap : Heap := [.traced { error := .nil, extraData := none, stack := none }]


/-- A base error `root` (address 0), a Traced Error around it with one entry
and one frame (address 1), and an outer message layer around that (address 2). -/
def sampleHeap : Heap :=
  [ .foreign "root" none none,
    .traced { error := .ptr 0, extraData := some [⟨"k", "v"⟩], stack := some [⟨7⟩] },
    .withMessage (.ptr 1) "outer" ]

/-- The error `errors.Wrap(error(stack.Trace(nil)), "ctx")` of github.com/pkg/errors: a
message layer around the typed nil `*Error` (address 0), under a layer that carries a stack
trace of two locations (address 1). -/
def nilLayerHeap : Heap := [.withMessage .nilError "ctx", .withStack (.ptr 0) [11, 12]]

/-- The error `errors.Join(stack.Trace(io.EOF))`: the base error (address 0), the Traced
Error around it (address 1), and the joined error (address 2), whose type has
`Unwrap() []error` and no `Unwrap() error`. -/
def joinHeap : Heap :=
  [ .foreign "EOF" none none,
    .traced { error := .ptr 0, extraData := none, stack := some [⟨7⟩] },
    .custom "EOF" none (some [.ptr 1]) none none ]

/-- The Traced Error `stack.Trace(error(stack.Trace(nil)))`: `Trace` finds no Traced Error
in the typed nil and builds a new one around it. -/
def nilTracedHeap : Heap :=
  [.traced { error := .nilError, extraData := none, stack := some [⟨105⟩, ⟨106⟩] }]

/-- A Traced Error around a value of an uncomparable type (type 0, text "a"). -/
def uncomparableHeap : Heap :=
  [.traced { error := .uncomparable 0 "a", extraData := none, stack := some [⟨7⟩] }]

/-- A call stack as `runtime.Callers` sees it below `Trace` or `Wrap`: the frames of
`runtime.Callers`, `GetStackProgramCounter`, `MarshalStack`, the traced call and two callers. -/
def sampleCallers : List Nat := [101, 102, 103, 104, 105, 106]

/-! ## Normal forms of the chain walkers -/

/-- One step of the chain at an object that is a plain link. -/
theorem unwrapChain_ptr (h : Heap) (n a : Nat) (o : Obj) (ho : h[a]? = some o)
    (hcu : isCustom o = false) :
    unwrapChain h (n + 1) (.ptr a) =
      match objNext o with
      | none => some [.ptr a]
      | some nx => (unwrapChain h n nx).map (fun l => ErrVal.ptr a :: l) := by
  cases o with
  | foreign m u st => cases u <;> simp [unwrapChain, ho, isUnwrapper, callUnwrap, objNext]
  | custom m u ua st t => simp [isCustom] at hcu
  | _ => simp [unwrapChain, ho, isUnwrapper, callUnwrap, objNext]

/-- A defined chain starts at a heap object that is a plain link. -/
theorem unwrapChain_ptr_plain (h : Heap) (n a : Nat) (l : List ErrVal)
    (hc : unwrapChain h (n + 1) (.ptr a) = some l) :
    ∃ o, h[a]? = some o ∧ isCustom o = false := by
  rcases ho : h[a]? with _ | o
  · simp [unwrapChain, ho] at hc
  · cases o with
    | custom m u ua st t => simp [unwrapChain, ho] at hc
    | _ => exact ⟨_, rfl, rfl⟩

/-- One step of `errors.As` at an object that is a plain link. -/
theorem errorsAs_ptr (h : Heap) (n a : Nat) (o : Obj) (ho : h[a]? = some o)
    (hcu : isCustom o = false) :
    errorsAs h (n + 1) (.ptr a) =
      if isTracedObj o then .ok (some (some a))
      else
        match objNext o with
        | none => .ok none
        | some nx => if nx = .nil then .ok none else errorsAs h n nx := by
  cases o with
  | traced e => simp [errorsAs, ho, isTracedObj]
  | custom m u ua st t => simp [isCustom] at hcu
  | foreign m u st =>
    rcases u with _ | nx
    · simp [errorsAs, ho, isUnwrapper, callUnwrap, objNext, isTracedObj]
    · cases nx <;> simp [errorsAs, ho, isUnwrapper, callUnwrap, objNext, isTracedObj]
  | withStack nx st => cases nx <;> simp [errorsAs, ho, isUnwrapper, callUnwrap, objNext, isTracedObj]
  | withMessage nx m => cases nx <;> simp [errorsAs, ho, isUnwrapper, callUnwrap, objNext, isTracedObj]

theorem isTraced_ptr (h : Heap) (a : Nat) :
    isTraced h (.ptr a) = match h[a]? with | none => false | some o => isTracedObj o := by
  rcases ho : h[a]? with _ | o
  · simp [isTraced, ho]
  · cases o <;> simp [isTraced, ho, isTracedObj]

theorem isStackTracer_ptr (h : Heap) (a : Nat) :
    isStackTracer h (.ptr a) = match h[a]? with | none => false | some o => hasStackTrace o := by
  rcases ho : h[a]? with _ | o
  · simp [isStackTracer, ho]
  · cases o <;> simp [isStackTracer, ho, hasStackTrace]

theorem isUnwrapper_ptr (h : Heap) (a : Nat) :
    isUnwrapper h (.ptr a) = match h[a]? with | none => false | some o => (objNext o).isSome := by
  rcases ho : h[a]? with _ | o
  · simp [isUnwrapper, ho]
  · cases o <;> simp [isUnwrapper, ho, objNext]

theorem callUnwrap_ptr (h : Heap) (a : Nat) (o : Obj) (nx : ErrVal) (ho : h[a]? = some o)
    (hn : objNext o = some nx) : callUnwrap h (.ptr a) = .ok nx := by
  cases o with
  | foreign m u st => simp [objNext] at hn; subst hn; simp [callUnwrap, ho]
  | custom m u ua st t => simp [objNext] at hn; subst hn; simp [callUnwrap, ho]
  | _ => simp [objNext] at hn; subst hn; simp [callUnwrap, ho]

theorem errorText_ptr (h : Heap) (n a : Nat) :
    errorText h (n + 1) (.ptr a) =
      match h[a]? with
      | none => .error .panic
      | some (.foreign msg _ _) => .ok msg
      | some (.custom msg _ _ _ _) => .ok msg
      | some (.withMessage cause msg) =>
        match errorText h n cause with
        | .ok t => .ok (msg ++ ": " ++ t)
        | .error f => .error f
      | some o => errorText h n ((objNext o).getD .nil) := by
  rcases ho : h[a]? with _ | o
  · simp [errorText, ho]
  · cases o <;> simp [errorText, ho, objNext]

/-- A defined chain is no longer than its fuel. -/
theorem unwrapChain_length (h : Heap) : ∀ (n : Nat) (e : ErrVal) (l : List ErrVal),
    unwrapChain h n e = some l → l.length ≤ n := by
  intro n
  induction n with
  | zero => intro e l hc; simp [unwrapChain] at hc
  | succ n ih =>
    intro e l hc
    cases e with
    | nil => simp [unwrapChain] at hc; subst hc; simp
    | nilError => simp [unwrapChain] at hc
    | uncomparable ut um => simp [unwrapChain] at hc
    | ptr a =>
      obtain ⟨o, ho, hcu⟩ := unwrapChain_ptr_plain h n a l hc
      rw [unwrapChain_ptr h n a o ho hcu] at hc
      rcases hn : objNext o with _ | nx
      · simp [hn] at hc; subst hc; simp
      · simp only [hn, Option.map_eq_some'] at hc
        obtain ⟨l', hl', rfl⟩ := hc
        have := ih nx l' hl'
        simp; omega

theorem unwrapChain_mono (h : Heap) : ∀ (n : Nat) (e : ErrVal) (l : List ErrVal) (m : Nat),
    unwrapChain h n e = some l → n ≤ m → unwrapChain h m e = some l := by
  intro n
  induction n with
  | zero => intro e l m hc; simp [unwrapChain] at hc
  | succ n ih =>
    intro e l m hc hm
    obtain ⟨m, rfl⟩ : ∃ k, m = k + 1 := ⟨m - 1, by omega⟩
    cases e with
    | nil => simpa [unwrapChain] using hc
    | nilError => simp [unwrapChain] at hc
    | uncomparable ut um => simp [unwrapChain] at hc
    | ptr a =>
      obtain ⟨o, ho, hcu⟩ := unwrapChain_ptr_plain h n a l hc
      rw [unwrapChain_ptr h n a o ho hcu] at hc
      rw [unwrapChain_ptr h m a o ho hcu]
      rcases hn : objNext o with _ | nx
      · simpa [hn] using hc
      · simp only [hn, Option.map_eq_some'] at hc ⊢
        obtain ⟨l', hl', rfl⟩ := hc
        exact ⟨l', ih nx l' m hl' (by omega), rfl⟩

/-! ## errors.As and GetTrace on a chain -/

theorem firstTraced_cons (h : Heap) (a : Nat) (rest : List ErrVal) :
    firstTraced h (.ptr a :: rest) = if isTraced h (.ptr a) then some a else firstTraced h rest := by
  simp [firstTraced]

/-- `errors.As` returns the first Traced Error of the chain. -/
theorem errorsAs_chain (h : Heap) : ∀ (n : Nat) (e : ErrVal) (l : List ErrVal),
    unwrapChain h n e = some l → errorsAs h n e = .ok ((firstTraced h l).map some) := by
  intro n
  induction n with
  | zero => intro e l hc; simp [unwrapChain] at hc
  | succ n ih =>
    intro e l hc
    cases e with
    | nil => simp [unwrapChain] at hc; subst hc; simp [errorsAs, firstTraced]
    | nilError => simp [unwrapChain] at hc
    | uncomparable ut um => simp [unwrapChain] at hc
    | ptr a =>
      obtain ⟨o, ho, hcu⟩ := unwrapChain_ptr_plain h n a l hc
      rw [unwrapChain_ptr h n a o ho hcu] at hc
      rw [errorsAs_ptr h n a o ho hcu]
      · have _ := ho
        by_cases ht : isTracedObj o = true
        · have hl : ∃ l', l = .ptr a :: l' := by
            rcases hn : objNext o with _ | nx
            · simp [hn] at hc; exact ⟨[], hc.symm⟩
            · simp only [hn, Option.map_eq_some'] at hc
              obtain ⟨l', _, rfl⟩ := hc
              exact ⟨l', rfl⟩
          obtain ⟨l', rfl⟩ := hl
          simp [ht, firstTraced_cons, isTraced_ptr, ho]
        · rcases hn : objNext o with _ | nx
          · simp [hn] at hc; subst hc
            simp [ht, firstTraced_cons, isTraced_ptr, ho, firstTraced]
          · simp only [hn, Option.map_eq_some'] at hc
            obtain ⟨l', hl', rfl⟩ := hc
            simp only [ht, firstTraced_cons, isTraced_ptr, ho]
            by_cases hnil : nx = .nil
            · subst hnil
              cases n with
              | zero => simp [unwrapChain] at hl'
              | succ k => simp [unwrapChain] at hl'; subst hl'; simp [firstTraced]
            · simp [hnil, ih nx l' hl']

/-- Nodes in front of the first stack tracer are not Traced Errors. -/
theorem firstTraced_of_not_tracer (h : Heap) (a : Nat) (rest : List ErrVal)
    (hs : isStackTracer h (.ptr a) = false) :
    firstTraced h (.ptr a :: rest) = firstTraced h rest := by
  have : isTraced h (.ptr a) = false := by
    rw [isStackTracer_ptr] at hs
    rw [isTraced_ptr]
    rcases ho : h[a]? with _ | o
    · rfl
    · cases o <;> simp_all [hasStackTrace, isTracedObj]
  simp [firstTraced_cons, this]

/-- What `GetTrace` returns on a chain: nil without a stack tracer, the first
Traced Error when there is one, and otherwise a new Traced Error around the first
stack tracer. -/
theorem GetTrace_chain (h : Heap) : ∀ (n : Nat) (e : ErrVal) (l : List ErrVal),
    unwrapChain h n e = some l →
    GetTrace h n e =
      match l.find? (isStackTracer h) with
      | none => .ok (h, none)
      | some s =>
        match firstTraced h l with
        | some a => .ok (h, some a)
        | none =>
          match callStackTrace h s with
          | .error f => .error f
          | .ok st =>
            .ok (h ++ [.traced { error := s, extraData := none, stack := framesOf st }],
              some h.length) := by
  intro n
  induction n with
  | zero => intro e l hc; simp [unwrapChain] at hc
  | succ n ih =>
    intro e l hc
    cases e with
    | nil => simp [unwrapChain] at hc; subst hc; simp [GetTrace]
    | nilError => simp [unwrapChain] at hc
    | uncomparable ut um => simp [unwrapChain] at hc
    | ptr a =>
      have hAs := errorsAs_chain h (n + 1) (.ptr a) l hc
      obtain ⟨o, ho, hcu⟩ := unwrapChain_ptr_plain h n a l hc
      rw [unwrapChain_ptr h n a o ho hcu] at hc
      · have _ := ho
        have hl : ∃ l', l = .ptr a :: l' := by
          rcases hn : objNext o with _ | nx
          · simp [hn] at hc; exact ⟨[], hc.symm⟩
          · simp only [hn, Option.map_eq_some'] at hc
            obtain ⟨l', _, rfl⟩ := hc
            exact ⟨l', rfl⟩
        obtain ⟨l', rfl⟩ := hl
        by_cases hs : isStackTracer h (.ptr a) = true
        · rw [GetTrace]
          simp only [hs, hAs, List.find?_cons_of_pos, reduceCtorEq, if_false, if_true]
          rcases hf : firstTraced h (.ptr a :: l') with _ | b
          · simp only [Option.map_none']
            rcases callStackTrace h (.ptr a) with f | st <;> simp [alloc]
          · simp
        · have hs' : isStackTracer h (.ptr a) = false := by simpa using hs
          rw [GetTrace]
          simp only [hs', reduceCtorEq, if_false, Bool.false_eq_true]
          rw [List.find?_cons_of_neg _ (by simp [hs']), firstTraced_of_not_tracer h a l' hs']
          rcases hn : objNext o with _ | nx
          · simp [hn] at hc; subst hc
            simp [isUnwrapper_ptr, ho, hn]
          · simp only [hn, Option.map_eq_some'] at hc
            obtain ⟨l'', hl'', hEq⟩ := hc
            simp only [List.cons.injEq, true_and] at hEq
            subst hEq
            simp [isUnwrapper_ptr, ho, hn, callUnwrap_ptr h a o nx ho hn, ih nx l'' hl'']

/-! ## The first Traced Error of a chain -/

theorem elems_goAppend {α : Type} (s xs : Option (List α)) :
    elems (goAppend s xs) = elems s ++ elems xs := by
  unfold goAppend elems
  rcases hx : xs.getD [] with _ | ⟨x, rest⟩ <;> simp

theorem firstTraced_of_mem (h : Heap) (a : Nat) : ∀ (l : List ErrVal),
    ErrVal.ptr a ∈ l → isTraced h (.ptr a) = true →
    (∀ b, ErrVal.ptr b ∈ l → isTraced h (.ptr b) = true → b = a) →
    firstTraced h l = some a := by
  intro l
  induction l with
  | nil => intro hm; simp at hm
  | cons x rest ih =>
    intro hm ht hu
    cases x with
    | nil =>
      simp only [List.mem_cons, reduceCtorEq, false_or] at hm
      simpa [firstTraced] using ih hm ht (fun b hb => hu b (List.mem_cons_of_mem _ hb))
    | nilError =>
      simp only [List.mem_cons, reduceCtorEq, false_or] at hm
      simpa [firstTraced] using ih hm ht (fun b hb => hu b (List.mem_cons_of_mem _ hb))
    | uncomparable ut um =>
      simp only [List.mem_cons, reduceCtorEq, false_or] at hm
      simpa [firstTraced] using ih hm ht (fun b hb => hu b (List.mem_cons_of_mem _ hb))
    | ptr b =>
      rw [firstTraced_cons]
      by_cases hb : isTraced h (.ptr b) = true
      · have hba := hu b (List.mem_cons_self _ _) hb
        subst hba
        simp [hb]
      · have hne : ErrVal.ptr a ≠ ErrVal.ptr b := by
          intro hEq; rw [← hEq] at hb; exact hb ht
        simp only [List.mem_cons, hne, false_or] at hm
        simp only [hb, if_false, Bool.false_eq_true]
        exact ih hm ht (fun c hc => hu c (List.mem_cons_of_mem _ hc))

theorem firstTraced_after_layers (h : Heap) (a : Nat) (rest : List ErrVal) : ∀ (layers : List ErrVal),
    (∀ x ∈ layers, isTraced h x = false) → isTraced h (.ptr a) = true →
    firstTraced h (layers ++ .ptr a :: rest) = some a := by
  intro layers
  induction layers with
  | nil => intro _ ht; simp [firstTraced_cons, ht]
  | cons x xs ih =>
    intro hl ht
    have hx := hl x (List.mem_cons_self _ _)
    have hxs := ih (fun y hy => hl y (List.mem_cons_of_mem _ hy)) ht
    cases x with
    | nil => simpa [firstTraced] using hxs
    | nilError => simpa [firstTraced] using hxs
    | uncomparable ut um => simpa [firstTraced] using hxs
    | ptr b => simp [firstTraced_cons, hx, hxs]

/-- A chain with a Traced Error has a stack tracer, and the first Traced Error is in the chain. -/
theorem firstTraced_some (h : Heap) (a : Nat) : ∀ (l : List ErrVal),
    firstTraced h l = some a →
    ErrVal.ptr a ∈ l ∧ isTraced h (.ptr a) = true ∧ ∃ s, l.find? (isStackTracer h) = some s := by
  intro l
  induction l with
  | nil => intro hf; simp [firstTraced] at hf
  | cons x rest ih =>
    intro hf
    have hrest : firstTraced h rest = some a →
        ErrVal.ptr a ∈ x :: rest ∧ isTraced h (.ptr a) = true ∧
          ∃ s, (x :: rest).find? (isStackTracer h) = some s := by
      intro hr
      obtain ⟨hm, ht, s, hs⟩ := ih hr
      refine ⟨List.mem_cons_of_mem _ hm, ht, ?_⟩
      by_cases hx : isStackTracer h x = true
      · exact ⟨x, by simp [hx]⟩
      · exact ⟨s, by simp [hx, hs]⟩
    cases x with
    | nil => exact hrest (by simpa [firstTraced] using hf)
    | nilError => exact hrest (by simpa [firstTraced] using hf)
    | uncomparable ut um => exact hrest (by simpa [firstTraced] using hf)
    | ptr b =>
      rw [firstTraced_cons] at hf
      by_cases hb : isTraced h (.ptr b) = true
      · simp only [hb, if_true, Option.some.injEq] at hf
        subst hf
        refine ⟨List.mem_cons_self _ _, hb, .ptr b, ?_⟩
        have : isStackTracer h (.ptr b) = true := by
          rw [isTraced_ptr] at hb
          rw [isStackTracer_ptr]
          rcases ho : h[b]? with _ | o
          · simp [ho] at hb
          · cases o <;> simp_all [hasStackTrace, isTracedObj]
        simp [this]
      · simp only [hb, if_false, Bool.false_eq_true] at hf
        exact hrest hf

/-- `GetTrace` returns the first Traced Error of a chain and leaves the heap alone. -/
theorem GetTrace_firstTraced (h : Heap) (n fuel : Nat) (e : ErrVal) (l : List ErrVal) (a : Nat)
    (hc : unwrapChain h n e = some l) (hfuel : n ≤ fuel) (hf : firstTraced h l = some a) :
    GetTrace h fuel e = .ok (h, some a) := by
  have hc' := unwrapChain_mono h n e l fuel hc hfuel
  obtain ⟨_, _, s, hs⟩ := firstTraced_some h a l hf
  rw [GetTrace_chain h fuel e l hc', hs, hf]

theorem isTraced_of_lookup (h : Heap) (a : Nat) (E : Error) (hE : h[a]? = some (.traced E)) :
    isTraced h (.ptr a) = true := by
  simp [isTraced, hE]

theorem lookup_of_isTraced (h : Heap) (a : Nat) (ht : isTraced h (.ptr a) = true) :
    ∃ E, h[a]? = some (.traced E) := by
  rw [isTraced_ptr] at ht
  rcases ho : h[a]? with _ | o
  · simp [ho] at ht
  · cases o with
    | traced E => exact ⟨E, rfl⟩
    | _ => simp [ho, isTracedObj] at ht

theorem lookup_lt (h : Heap) (a : Nat) (o : Obj) (ho : h[a]? = some o) : a < h.length := by
  by_contra hlt
  have : h[a]? = none := List.getElem?_eq_none (by omega)
  simp [this] at ho

/-- Trace on a chain whose first Traced Error is at `a`: the entries are appended there. -/
theorem Trace_firstTraced (h : Heap) (callers : List Nat) (n fuel : Nat) (err : ErrVal)
    (l : List ErrVal) (a : Nat) (E : Error) (xs : kvpList)
    (hc : unwrapChain h n err = some l) (hfuel : n ≤ fuel)
    (hf : firstTraced h l = some a) (hE : h[a]? = some (.traced E)) :
    Trace h callers fuel err xs =
      .ok (h.set a (.traced { E with extraData := goAppend E.extraData xs }), some a) := by
  have hne : err ≠ .nil := by
    rintro rfl
    cases n with
    | zero => simp [unwrapChain] at hc
    | succ k => simp [unwrapChain] at hc; subst hc; simp [firstTraced] at hf
  simp [Trace, hne, GetTrace_firstTraced h n fuel err l a hc hfuel hf, hE]

/-! ## Structure of chains and heaps with the same links -/

theorem unwrapChain_ptr_inv (h : Heap) (n a : Nat) (l : List ErrVal)
    (hc : unwrapChain h n (.ptr a) = some l) :
    ∃ k o, n = k + 1 ∧ h[a]? = some o ∧
      ((objNext o = none ∧ l = [.ptr a]) ∨
        ∃ nx l', objNext o = some nx ∧ unwrapChain h k nx = some l' ∧ l = .ptr a :: l') := by
  cases n with
  | zero => simp [unwrapChain] at hc
  | succ k =>
    obtain ⟨o, ho, hcu⟩ := unwrapChain_ptr_plain h k a l hc
    rw [unwrapChain_ptr h k a o ho hcu] at hc
    · refine ⟨k, o, rfl, ho, ?_⟩
      rcases hn : objNext o with _ | nx
      · simp [hn] at hc; exact Or.inl ⟨rfl, hc.symm⟩
      · simp only [hn, Option.map_eq_some'] at hc
        obtain ⟨l', hl', rfl⟩ := hc
        exact Or.inr ⟨nx, l', rfl, hl', rfl⟩

theorem unwrapChain_nil_inv (h : Heap) (n : Nat) (l : List ErrVal)
    (hc : unwrapChain h n .nil = some l) : l = [] := by
  cases n with
  | zero => simp [unwrapChain] at hc
  | succ k => simp [unwrapChain] at hc; exact hc

/-- Every node of a chain is a pointer to a heap object. -/
theorem unwrapChain_mem (h : Heap) : ∀ (n : Nat) (e : ErrVal) (l : List ErrVal),
    unwrapChain h n e = some l → ∀ x ∈ l, ∃ b o, x = .ptr b ∧ h[b]? = some o := by
  intro n
  induction n with
  | zero => intro e l hc; simp [unwrapChain] at hc
  | succ n ih =>
    intro e l hc x hx
    cases e with
    | nil => simp [unwrapChain] at hc; subst hc; simp at hx
    | nilError => simp [unwrapChain] at hc
    | uncomparable ut um => simp [unwrapChain] at hc
    | ptr a =>
      obtain ⟨k, o, hk, ho, hcase⟩ := unwrapChain_ptr_inv h (n + 1) a l hc
      have hkn : k = n := by omega
      subst hkn
      rcases hcase with ⟨_, rfl⟩ | ⟨nx, l', _, hl', rfl⟩
      · simp at hx; exact ⟨a, o, hx, ho⟩
      · rcases List.mem_cons.1 hx with rfl | hx'
        · exact ⟨a, o, rfl, ho⟩
        · exact ih nx l' hl' x hx'

/-- The chain of a node of a chain is a suffix of that chain. -/
theorem unwrapChain_suffix (h : Heap) : ∀ (n : Nat) (e : ErrVal) (l : List ErrVal),
    unwrapChain h n e = some l → ∀ x ∈ l,
    ∃ pre sfx, l = pre ++ sfx ∧ unwrapChain h n x = some sfx := by
  intro n
  induction n with
  | zero => intro e l hc; simp [unwrapChain] at hc
  | succ n ih =>
    intro e l hc x hx
    cases e with
    | nil => simp [unwrapChain] at hc; subst hc; simp at hx
    | nilError => simp [unwrapChain] at hc
    | uncomparable ut um => simp [unwrapChain] at hc
    | ptr a =>
      obtain ⟨k, o, hk, ho, hcase⟩ := unwrapChain_ptr_inv h (n + 1) a l hc
      have hkn : k = n := by omega
      subst hkn
      rcases hcase with ⟨_, rfl⟩ | ⟨nx, l', _, hl', rfl⟩
      · simp at hx; subst hx; exact ⟨[], [.ptr a], rfl, hc⟩
      · rcases List.mem_cons.1 hx with rfl | hx'
        · exact ⟨[], .ptr a :: l', rfl, hc⟩
        · obtain ⟨pre, sfx, hEq, hs⟩ := ih nx l' hl' x hx'
          exact ⟨.ptr a :: pre, sfx, by simp [hEq], unwrapChain_mono h k x sfx (k + 1) hs (by omega)⟩

/-- A chain visits no node twice. -/
theorem unwrapChain_nodup (h : Heap) : ∀ (n : Nat) (e : ErrVal) (l : List ErrVal),
    unwrapChain h n e = some l → l.Nodup := by
  intro n
  induction n with
  | zero => intro e l hc; simp [unwrapChain] at hc
  | succ n ih =>
    intro e l hc
    cases e with
    | nil => simp [unwrapChain] at hc; subst hc; simp
    | nilError => simp [unwrapChain] at hc
    | uncomparable ut um => simp [unwrapChain] at hc
    | ptr a =>
      obtain ⟨k, o, hk, ho, hcase⟩ := unwrapChain_ptr_inv h (n + 1) a l hc
      have hkn : k = n := by omega
      subst hkn
      rcases hcase with ⟨_, rfl⟩ | ⟨nx, l', _, hl', rfl⟩
      · simp
      · refine List.nodup_cons.2 ⟨?_, ih nx l' hl'⟩
        intro hmem
        obtain ⟨pre, sfx, hEq, hs⟩ := unwrapChain_suffix h k nx l' hl' (.ptr a) hmem
        have h1 := unwrapChain_mono h k (.ptr a) sfx (k + 1) hs (by omega)
        rw [hc] at h1
        have h2 : sfx = .ptr a :: l' := by simpa using h1.symm
        have h3 := congrArg List.length hEq
        rw [h2] at h3
        simp at h3
        omega

theorem SameLinks.objNext_eq {h h' : Heap} {a : Nat} (hs : SameLinks h h' a) (o : Obj)
    (ho : h[a]? = some o) : ∃ o', h'[a]? = some o' ∧ objNext o' = objNext o ∧
      isTracedObj o' = isTracedObj o := by
  rcases hs with hEq | ⟨e, e', he, he', herr⟩
  · exact ⟨o, by rw [hEq, ho], rfl, rfl⟩
  · rw [ho] at he
    simp only [Option.some.injEq] at he
    subst he
    exact ⟨.traced e', he', by simp [objNext, herr], rfl⟩

theorem SameLinks.plain_eq {h h' : Heap} {a : Nat} (hs : SameLinks h h' a) (o : Obj)
    (ho : h[a]? = some o) (hcu : isCustom o = false) :
    ∃ o', h'[a]? = some o' ∧ objNext o' = objNext o ∧ isCustom o' = false := by
  rcases hs with hEq | ⟨e, e', he, he', herr⟩
  · exact ⟨o, by rw [hEq, ho], rfl, hcu⟩
  · rw [ho] at he
    simp only [Option.some.injEq] at he
    subst he
    exact ⟨.traced e', he', by simp [objNext, herr], rfl⟩

/-- The chain is the same in a heap with the same links along it. -/
theorem unwrapChain_congr (h h' : Heap) : ∀ (n : Nat) (e : ErrVal) (l : List ErrVal),
    unwrapChain h n e = some l → (∀ a, ErrVal.ptr a ∈ l → SameLinks h h' a) →
    unwrapChain h' n e = some l := by
  intro n
  induction n with
  | zero => intro e l hc; simp [unwrapChain] at hc
  | succ n ih =>
    intro e l hc hs
    cases e with
    | nil => simpa [unwrapChain] using hc
    | nilError => simp [unwrapChain] at hc
    | uncomparable ut um => simp [unwrapChain] at hc
    | ptr a =>
      obtain ⟨k, o, hk, ho, hcase⟩ := unwrapChain_ptr_inv h (n + 1) a l hc
      have hkn : k = n := by omega
      subst hkn
      have hal : ErrVal.ptr a ∈ l := by
        rcases hcase with ⟨_, rfl⟩ | ⟨_, _, _, _, rfl⟩ <;> simp
      obtain ⟨o0, ho0, hcu⟩ := unwrapChain_ptr_plain h _ a l hc
      have ho0o : o0 = o := by
        rw [ho] at ho0
        exact (Option.some.inj ho0).symm
      subst ho0o
      obtain ⟨o', ho', hnx, hcu'⟩ := (hs a hal).plain_eq o0 ho hcu
      rw [unwrapChain_ptr h' _ a o' ho' hcu']
      simp only [hnx]
      rcases hcase with ⟨hn, rfl⟩ | ⟨nx, l', hn, hl', rfl⟩
      · simp [hn]
      · simp only [hn, Option.map_eq_some']
        exact ⟨l', ih nx l' hl' (fun b hb => hs b (List.mem_cons_of_mem _ hb)), rfl⟩

theorem isTraced_congr (h h' : Heap) (a : Nat) (hs : SameLinks h h' a) :
    isTraced h' (.ptr a) = isTraced h (.ptr a) := by
  rw [isTraced_ptr, isTraced_ptr]
  rcases ho : h[a]? with _ | o
  · rcases hs with hEq | ⟨e, e', he, _, _⟩
    · rw [hEq, ho]
    · rw [ho] at he; simp at he
  · obtain ⟨o', ho', _, ht⟩ := hs.objNext_eq o ho
    simp [ho', ht]

theorem firstTraced_congr (h h' : Heap) : ∀ (l : List ErrVal),
    (∀ a, ErrVal.ptr a ∈ l → SameLinks h h' a) → firstTraced h' l = firstTraced h l := by
  intro l
  induction l with
  | nil => intro _; rfl
  | cons x rest ih =>
    intro hs
    have hr := ih (fun a ha => hs a (List.mem_cons_of_mem _ ha))
    cases x with
    | nil => simpa [firstTraced] using hr
    | nilError => simpa [firstTraced] using hr
    | uncomparable ut um => simpa [firstTraced] using hr
    | ptr b =>
      rw [firstTraced_cons, firstTraced_cons, isTraced_congr h h' b (hs b (List.mem_cons_self _ _)), hr]

theorem tracedCount_congr (h h' : Heap) : ∀ (l : List ErrVal),
    (∀ x ∈ l, ∃ b, x = ErrVal.ptr b) →
    (∀ a, ErrVal.ptr a ∈ l → SameLinks h h' a) → tracedCount h' l = tracedCount h l := by
  intro l hp hs
  unfold tracedCount
  apply List.countP_congr
  intro x hx
  obtain ⟨b, rfl⟩ := hp x hx
  rw [isTraced_congr h h' b (hs b hx)]

/-- The text of an error is the same in a heap with the same links along its chain,
as long as the objects that are not Traced Errors are the same. -/
theorem errorText_congr (h h' : Heap) : ∀ (f n : Nat) (e : ErrVal) (l : List ErrVal),
    unwrapChain h n e = some l → (∀ a, ErrVal.ptr a ∈ l → SameLinks h h' a) →
    errorText h' f e = errorText h f e := by
  intro f
  induction f with
  | zero => intro n e l _ _; simp [errorText]
  | succ f ih =>
    intro n e l hc hs
    cases e with
    | nil => simp [errorText]
    | nilError => simp [errorText]
    | uncomparable ut um => simp [errorText]
    | ptr a =>
      obtain ⟨k, o, hk, ho, hcase⟩ := unwrapChain_ptr_inv h n a l hc
      have hal : ErrVal.ptr a ∈ l := by
        rcases hcase with ⟨_, rfl⟩ | ⟨_, _, _, _, rfl⟩ <;> simp
      have hnext : ∀ nx, objNext o = some nx → errorText h' f nx = errorText h f nx := by
        intro nx hn
        rcases hcase with ⟨hn', _⟩ | ⟨nx', l', hn', hl', rfl⟩
        · rw [hn] at hn'; simp at hn'
        · rw [hn] at hn'
          simp only [Option.some.injEq] at hn'
          subst hn'
          exact ih k nx l' hl' (fun b hb => hs b (List.mem_cons_of_mem _ hb))
      rw [errorText_ptr, errorText_ptr]
      rcases hs a hal with hEq | ⟨e, e', he, he', herr⟩
      · rw [hEq, ho]
        cases o with
        | foreign m u st => rfl
        | custom m u ua st t => rfl
        | withMessage c m => simp only; rw [hnext c rfl]
        | withStack i st => simp only [objNext, Option.getD_some]; exact hnext i rfl
        | traced e => simp only [objNext, Option.getD_some]; exact hnext e.error rfl
      · rw [he, he']
        rw [ho] at he
        simp only [Option.some.injEq] at he
        subst he
        simp only [objNext, Option.getD_some, herr]
        exact hnext e.error rfl

/-! ## Wrap on a chain that holds a Traced Error -/

theorem getElem?_append_old (h xs : Heap) (b : Nat) (hb : b < h.length) :
    (h ++ xs)[b]? = h[b]? := by
  rw [List.getElem?_append_left hb]

theorem getElem?_append_new (h xs : Heap) (i : Nat) :
    (h ++ xs)[h.length + i]? = xs[i]? := by
  rw [List.getElem?_append_right (by omega)]
  simp

theorem getElem?_set_other (h : Heap) (a b : Nat) (o : Obj) (hne : b ≠ a) :
    (h.set a o)[b]? = h[b]? := by
  rw [List.getElem?_set_ne (Ne.symm hne)]

theorem getElem?_set_same (h : Heap) (a : Nat) (o : Obj) (ha : a < h.length) :
    (h.set a o)[a]? = some o := by
  simp [List.getElem?_set_self ha]

theorem errorsWrap_ne_nil (h : Heap) (callers : List Nat) (err : ErrVal) (m : String)
    (hne : err ≠ .nil) :
    errorsWrap h callers err m =
      (h ++ [.withMessage err m, .withStack (.ptr h.length) (runtimeCallers callers 3 maxDepth)],
        .ptr (h.length + 1)) := by
  simp [errorsWrap, hne, alloc]

/-- Wrap on a chain whose first Traced Error is at `a`: that Traced Error gets
the wrapped inner error and the appended entries, and is returned. -/
theorem Wrap_firstTraced (h : Heap) (callers : List Nat) (n fuel : Nat) (err : ErrVal)
    (l : List ErrVal) (a : Nat) (E : Error) (m : String) (xs : kvpList)
    (hc : unwrapChain h n err = some l) (hfuel : n ≤ fuel)
    (hf : firstTraced h l = some a) (hE : h[a]? = some (.traced E)) :
    Wrap h callers fuel err m xs =
      .ok ((errorsWrap h callers E.error m).1.set a
          (.traced { error := (errorsWrap h callers E.error m).2,
                     extraData := goAppend E.extraData xs, stack := E.stack }), some a) := by
  have hne : err ≠ .nil := by
    rintro rfl
    rw [unwrapChain_nil_inv h n l hc] at hf
    simp [firstTraced] at hf
  have hAs := errorsAs_chain h fuel err l (unwrapChain_mono h n err l fuel hc hfuel)
  rw [hf] at hAs
  simp only [Wrap, hne, if_false, hAs, Option.map_some', hE]
  by_cases hx : 0 < (elems xs).length
  · simp [hx]
  · have hnil : elems xs = [] := by
      cases hxs : elems xs with
      | nil => rfl
      | cons y ys => simp [hxs] at hx
    have : goAppend E.extraData xs = E.extraData := by
      unfold goAppend
      unfold elems at hnil
      rw [hnil]
    simp [hx, this]

/-- Text of a Traced Error after its inner error was wrapped with message `m` in place. -/
theorem errorText_after_wrap (h : Heap) (callers : List Nat) (n f a : Nat) (E E' : Error)
    (l : List ErrVal) (m t : String)
    (hc : unwrapChain h n (.ptr a) = some l) (hE : h[a]? = some (.traced E))
    (hE' : E'.error = (errorsWrap h callers E.error m).2)
    (ht : errorText h f (.ptr a) = .ok t) :
    errorText ((errorsWrap h callers E.error m).1.set a (.traced E')) (f + 2) (.ptr a) =
      .ok (m ++ ": " ++ t) := by
  obtain ⟨f, rfl⟩ : ∃ k, f = k + 1 := by
    cases f with
    | zero => simp [errorText] at ht
    | succ k => exact ⟨k, rfl⟩
  rw [errorText_ptr, hE] at ht
  simp only [objNext, Option.getD_some] at ht
  have hne : E.error ≠ .nil := by
    intro hnil
    rw [hnil] at ht
    cases f <;> simp [errorText] at ht
  have ha : a < h.length := lookup_lt h a _ hE
  obtain ⟨k, o, hk, ho, hcase⟩ := unwrapChain_ptr_inv h n a l hc
  rw [hE] at ho
  simp only [Option.some.injEq] at ho
  subst ho
  rcases hcase with ⟨hn, _⟩ | ⟨nx, l', hn, hl', rfl⟩
  · simp [objNext] at hn
  simp only [objNext, Option.some.injEq] at hn
  subst hn
  have hnd := unwrapChain_nodup h n (.ptr a) _ hc
  have hanot : ErrVal.ptr a ∉ l' := (List.nodup_cons.1 hnd).1
  rw [errorsWrap_ne_nil h callers E.error m hne] at hE' ⊢
  simp only at hE' ⊢
  set h1 : Heap := h ++ [.withMessage E.error m,
    .withStack (.ptr h.length) (runtimeCallers callers 3 maxDepth)] with hh1
  set h2 : Heap := h1.set a (.traced E') with hh2
  have hlen1 : h1.length = h.length + 2 := by simp [hh1]
  have e0 : h2[a]? = some (.traced E') := by
    rw [hh2]; exact getElem?_set_same h1 a _ (by omega)
  have e1 : h2[h.length + 1]? =
      some (.withStack (.ptr h.length) (runtimeCallers callers 3 maxDepth)) := by
    rw [hh2, getElem?_set_other h1 a _ _ (by omega), hh1, getElem?_append_new]
    rfl
  have e2 : h2[h.length]? = some (.withMessage E.error m) := by
    rw [hh2, getElem?_set_other h1 a _ _ (by omega), hh1]
    exact getElem?_append_new h _ 0
  have hinner : errorText h2 f E.error = errorText h f E.error := by
    apply errorText_congr h h2 f k E.error l' hl'
    intro b hb
    obtain ⟨b', o, hb', ho⟩ := unwrapChain_mem h k E.error l' hl' _ hb
    simp only [ErrVal.ptr.injEq] at hb'
    subst hb'
    have hba : b ≠ a := by
      rintro rfl
      exact hanot hb
    left
    rw [hh2, getElem?_set_other h1 a _ _ hba, hh1]
    exact getElem?_append_old h _ b (lookup_lt h b o ho)
  rw [errorText_ptr, e0]
  simp only [objNext, Option.getD_some, hE']
  rw [errorText_ptr, e1]
  simp only [objNext, Option.getD_some]
  rw [errorText_ptr, e2]
  simp only [hinner, ht]

/-! ## Counting Traced Errors; the loop of Is -/

theorem tracedCount_cons (h : Heap) (x : ErrVal) (rest : List ErrVal) :
    tracedCount h (x :: rest) = tracedCount h rest + (if isTraced h x = true then 1 else 0) := by
  simp [tracedCount, List.countP_cons]

theorem tracedCount_pos_of_mem (h : Heap) (x : ErrVal) (l : List ErrVal) (hm : x ∈ l)
    (ht : isTraced h x = true) : 0 < tracedCount h l := by
  unfold tracedCount
  exact List.countP_pos_iff.2 ⟨x, hm, ht⟩

/-- In a chain with at most one Traced Error, a Traced Error of the chain is the first one. -/
theorem firstTraced_of_count (h : Heap) (a : Nat) (l : List ErrVal)
    (hm : ErrVal.ptr a ∈ l) (ht : isTraced h (.ptr a) = true) (hcnt : tracedCount h l ≤ 1) :
    firstTraced h l = some a := by
  apply firstTraced_of_mem h a l hm ht
  intro b hb hbt
  by_contra hne
  induction l with
  | nil => simp at hm
  | cons x rest ih =>
    rw [tracedCount_cons] at hcnt
    by_cases hx : isTraced h x = true
    · simp only [hx, if_true] at hcnt
      have hz : tracedCount h rest = 0 := by omega
      have hnot : ∀ y ∈ rest, isTraced h y = true → False := by
        intro y hy hyt
        have := tracedCount_pos_of_mem h y rest hy hyt
        omega
      rcases List.mem_cons.1 hm with hax | har
      · rcases List.mem_cons.1 hb with hbx | hbr
        · rw [← hbx] at hax
          simp only [ErrVal.ptr.injEq] at hax
          exact hne hax.symm
        · exact hnot _ hbr hbt
      · exact hnot _ har ht
    · simp only [hx, if_false, Bool.false_eq_true] at hcnt
      rcases List.mem_cons.1 hm with hax | har
      · rw [hax] at ht; exact hx ht
      · rcases List.mem_cons.1 hb with hbx | hbr
        · rw [hbx] at hbt; exact hx hbt
        · exact ih har (by simpa using hcnt) hbr

theorem firstTraced_none (h : Heap) : ∀ (l : List ErrVal), firstTraced h l = none →
    ∀ a, ErrVal.ptr a ∈ l → isTraced h (.ptr a) = false := by
  intro l
  induction l with
  | nil => intro _ a ha; simp at ha
  | cons x rest ih =>
    intro hf a ha
    cases x with
    | nil =>
      simp only [List.mem_cons, reduceCtorEq, false_or] at ha
      exact ih (by simpa [firstTraced] using hf) a ha
    | nilError =>
      simp only [List.mem_cons, reduceCtorEq, false_or] at ha
      exact ih (by simpa [firstTraced] using hf) a ha
    | uncomparable ut um =>
      simp only [List.mem_cons, reduceCtorEq, false_or] at ha
      exact ih (by simpa [firstTraced] using hf) a ha
    | ptr b =>
      rw [firstTraced_cons] at hf
      by_cases hb : isTraced h (.ptr b) = true
      · simp [hb] at hf
      · simp only [hb, if_false, Bool.false_eq_true] at hf
        rcases List.mem_cons.1 ha with hab | har
        · rw [hab]; simpa using hb
        · exact ih hf a har

theorem goEq_nil (t : ErrVal) : goEq .nil t = .ok (decide (ErrVal.nil = t)) := by
  cases t <;> rfl

theorem goEq_ptr (a : Nat) (t : ErrVal) : goEq (.ptr a) t = .ok (decide (ErrVal.ptr a = t)) := by
  cases t <;> rfl

/-- The loop of `Is` finds `target` exactly when it is a node of the chain it walks; on a
chain, whose nodes are pointers, no comparison panics. -/
theorem isLoop_chain (h : Heap) (target : ErrVal) (htgt : target ≠ .nil) :
    ∀ (n : Nat) (e : ErrVal) (l : List ErrVal),
    unwrapChain h n e = some l → isLoop h target n e = .ok (decide (target ∈ l)) := by
  intro n
  induction n with
  | zero => intro e l hc; simp [unwrapChain] at hc
  | succ n ih =>
    intro e l hc
    cases e with
    | nil =>
      simp [unwrapChain] at hc; subst hc
      simp [isLoop, goEq_nil, errorsUnwrap, isUnwrapper, Ne.symm htgt]
    | nilError => simp [unwrapChain] at hc
    | uncomparable ut um => simp [unwrapChain] at hc
    | ptr a =>
      obtain ⟨k, o, hk, ho, hcase⟩ := unwrapChain_ptr_inv h (n + 1) a l hc
      have hkn : k = n := by omega
      subst hkn
      by_cases hat : ErrVal.ptr a = target
      · have : target ∈ l := by
          rcases hcase with ⟨_, rfl⟩ | ⟨_, _, _, _, rfl⟩ <;> simp [← hat]
        subst hat
        simp [isLoop, goEq_ptr, this]
      · rcases hcase with ⟨hn, rfl⟩ | ⟨nx, l', hn, hl', rfl⟩
        · have : target ≠ ErrVal.ptr a := fun hh => hat hh.symm
          simp [isLoop, goEq_ptr, hat, errorsUnwrap, isUnwrapper_ptr, ho, hn, this]
        · have hne : target ≠ ErrVal.ptr a := fun hh => hat hh.symm
          have hu : errorsUnwrap h (.ptr a) = .ok nx := by
            simp [errorsUnwrap, isUnwrapper_ptr, ho, hn, callUnwrap_ptr h a o nx ho hn]
          rw [isLoop]
          simp only [goEq_ptr, hat, decide_False, hu]
          cases nx with
          | nil =>
            rw [unwrapChain_nil_inv h k l' hl']
            simp [hne]
          | nilError =>
            cases k <;> simp [unwrapChain] at hl'
          | uncomparable ut um =>
            cases k <;> simp [unwrapChain] at hl'
          | ptr b =>
            simp only [ih (.ptr b) l' hl', List.mem_cons, hne, false_or]

/-! ## More fuel changes no result -/

/-- On a chain, more fuel does not change what `errors.As` returns. -/
theorem errorsAs_mono (h : Heap) : ∀ (n : Nat) (e : ErrVal) (r : Option (Option Nat)) (m : Nat)
    (k : Nat) (l : List ErrVal), unwrapChain h k e = some l →
    errorsAs h n e = .ok r → n ≤ m → errorsAs h m e = .ok r := by
  intro n
  induction n with
  | zero => intro e r m k l _ hr; simp [errorsAs] at hr
  | succ n ih =>
    intro e r m k l hc hr hm
    obtain ⟨m, rfl⟩ : ∃ j, m = j + 1 := ⟨m - 1, by omega⟩
    cases e with
    | nil => simpa [errorsAs] using hr
    | nilError => simpa [errorsAs] using hr
    | uncomparable ut um => simpa [errorsAs] using hr
    | ptr a =>
      obtain ⟨k', o, hk, ho, hcase⟩ := unwrapChain_ptr_inv h k a l hc
      subst hk
      obtain ⟨o0, ho0, hcu⟩ := unwrapChain_ptr_plain h k' a l hc
      have ho0o : o0 = o := by
        rw [ho] at ho0
        exact (Option.some.inj ho0).symm
      subst ho0o
      rw [errorsAs_ptr h n a o0 ho hcu] at hr
      rw [errorsAs_ptr h m a o0 ho hcu]
      by_cases ht : isTracedObj o0 = true
      · simpa [ht] using hr
      · simp only [ht, if_false, Bool.false_eq_true] at hr ⊢
        rcases hcase with ⟨hn, _⟩ | ⟨nx, l', hn, hl', _⟩
        · simpa [hn] using hr
        · simp only [hn] at hr ⊢
          by_cases hnil : nx = .nil
          · simpa [hnil] using hr
          · simp only [hnil, if_false] at hr ⊢
            exact ih nx r m k' l' hl' hr (by omega)

/-- On a chain, more fuel does not change what `GetTrace` returns. -/
theorem GetTrace_mono (h : Heap) : ∀ (n : Nat) (e : ErrVal) (r : Heap × Option Nat) (m : Nat)
    (k : Nat) (l : List ErrVal), unwrapChain h k e = some l →
    GetTrace h n e = .ok r → n ≤ m → GetTrace h m e = .ok r := by
  intro n
  induction n with
  | zero => intro e r m k l _ hr; simp [GetTrace] at hr
  | succ n ih =>
    intro e r m k l hc hr hm
    obtain ⟨m, rfl⟩ : ∃ j, m = j + 1 := ⟨m - 1, by omega⟩
    rw [GetTrace] at hr ⊢
    by_cases hnil : e = .nil
    · simpa [hnil] using hr
    · simp only [hnil, if_false] at hr ⊢
      by_cases hs : isStackTracer h e = true
      · simp only [hs, if_true] at hr ⊢
        rcases hAs : errorsAs h (n + 1) e with f | q
        · simp [hAs] at hr
        · rw [errorsAs_mono h (n + 1) e q (m + 1) k l hc hAs hm]
          simpa [hAs] using hr
      · simp only [hs, if_false, Bool.false_eq_true] at hr ⊢
        by_cases hu : isUnwrapper h e = true
        · simp only [hu, if_true] at hr ⊢
          rcases hcu : callUnwrap h e with f | nx
          · simp [hcu] at hr
          · simp only [hcu] at hr ⊢
            cases e with
            | nil => exact absurd rfl hnil
            | nilError => simp [callUnwrap] at hcu
            | uncomparable ut um => simp [callUnwrap] at hcu
            | ptr a =>
              obtain ⟨k', o, hk, ho, hcase⟩ := unwrapChain_ptr_inv h k a l hc
              rcases hcase with ⟨hn, _⟩ | ⟨nx', l', hn, hl', _⟩
              · rw [isUnwrapper_ptr, ho] at hu
                simp [hn] at hu
              · have hnx := callUnwrap_ptr h a o nx' ho hn
                rw [hnx] at hcu
                simp only [Except.ok.injEq] at hcu
                subst hcu
                exact ih nx' r m k' l' hl' hr (by omega)
        · simpa [hu] using hr

/-- On a chain, more fuel does not change what `Trace` returns. -/
theorem Trace_mono (h : Heap) (callers : List Nat) (n m : Nat) (e : ErrVal) (xs : kvpList)
    (r : Heap × Option Nat) (k : Nat) (l : List ErrVal) (hc : unwrapChain h k e = some l)
    (hr : Trace h callers n e xs = .ok r) (hm : n ≤ m) :
    Trace h callers m e xs = .ok r := by
  unfold Trace at hr ⊢
  by_cases hnil : e = .nil
  · simpa [hnil] using hr
  · simp only [hnil, if_false] at hr ⊢
    rcases hg : GetTrace h n e with f | q
    · simp [hg] at hr
    · rw [GetTrace_mono h n e q m k l hc hg hm]
      simpa [hg] using hr

/-- On a chain, more fuel does not change what `Wrap` returns. -/
theorem Wrap_mono (h : Heap) (callers : List Nat) (n m : Nat) (e : ErrVal) (msg : String)
    (xs : kvpList) (r : Heap × Option Nat) (k : Nat) (l : List ErrVal)
    (hc : unwrapChain h k e = some l) (hr : Wrap h callers n e msg xs = .ok r) (hm : n ≤ m) :
    Wrap h callers m e msg xs = .ok r := by
  unfold Wrap at hr ⊢
  by_cases hnil : e = .nil
  · simpa [hnil] using hr
  · simp only [hnil, if_false] at hr ⊢
    rcases hg : errorsAs h n e with f | q
    · simp [hg] at hr
    · rw [errorsAs_mono h n e q m k l hc hg hm]
      simpa [hg] using hr

/-- More fuel does not change the text of an error. -/
theorem errorText_mono (h : Heap) : ∀ (n : Nat) (e : ErrVal) (t : String) (m : Nat),
    errorText h n e = .ok t → n ≤ m → errorText h m e = .ok t := by
  intro n
  induction n with
  | zero => intro e t m ht; simp [errorText] at ht
  | succ n ih =>
    intro e t m ht hm
    obtain ⟨m, rfl⟩ : ∃ k, m = k + 1 := ⟨m - 1, by omega⟩
    cases e with
    | nil => simp [errorText] at ht
    | nilError => simp [errorText] at ht
    | uncomparable ut um => simpa [errorText] using ht
    | ptr a =>
      rw [errorText_ptr] at ht ⊢
      rcases ho : h[a]? with _ | o
      · simp [ho] at ht
      · simp only [ho] at ht ⊢
        cases o with
        | foreign msg u st => simpa using ht
        | custom msg u ua st t => simpa using ht
        | withMessage c msg =>
          simp only at ht ⊢
          rcases hc : errorText h n c with f | t'
          · simp [hc] at ht
          · rw [ih c t' m hc (by omega)]
            simpa [hc] using ht
        | withStack i st => exact ih _ t m ht (by omega)
        | traced E => exact ih _ t m ht (by omega)

/-! ## Chains and texts after an allocation or an update -/

theorem tracedCount_append (h : Heap) (p s : List ErrVal) :
    tracedCount h (p ++ s) = tracedCount h p + tracedCount h s := by
  simp [tracedCount, List.countP_append]

theorem tracedCount_zero_of_firstTraced_none (h : Heap) (l : List ErrVal)
    (hp : ∀ x ∈ l, ∃ b, x = ErrVal.ptr b) (hf : firstTraced h l = none) :
    tracedCount h l = 0 := by
  unfold tracedCount
  rw [List.countP_eq_zero]
  intro x hx
  obtain ⟨b, rfl⟩ := hp x hx
  simp [firstTraced_none h l hf b hx]

theorem unwrapChain_ptrs (h : Heap) (n : Nat) (e : ErrVal) (l : List ErrVal)
    (hc : unwrapChain h n e = some l) : ∀ x ∈ l, ∃ b, x = ErrVal.ptr b := by
  intro x hx
  obtain ⟨b, _, hb, _⟩ := unwrapChain_mem h n e l hc x hx
  exact ⟨b, hb⟩

/-- A chain and its count of Traced Errors carry over to a heap that holds the same
objects at the nodes of the chain. -/
theorem chain_agree (h h' : Heap) (n : Nat) (x : ErrVal) (l : List ErrVal)
    (hc : unwrapChain h n x = some l) (hag : ∀ b, ErrVal.ptr b ∈ l → h'[b]? = h[b]?) :
    unwrapChain h' n x = some l ∧ tracedCount h' l = tracedCount h l :=
  ⟨unwrapChain_congr h h' n x l hc (fun b hb => Or.inl (hag b hb)),
   tracedCount_congr h h' l (unwrapChain_ptrs h n x l hc) (fun b hb => Or.inl (hag b hb))⟩

theorem chain_head (h : Heap) (a k : Nat) (o : Obj) (nx : ErrVal) (l : List ErrVal)
    (ho : h[a]? = some o) (hcu : isCustom o = false) (hn : objNext o = some nx)
    (hc : unwrapChain h k nx = some l) :
    unwrapChain h (k + 1) (.ptr a) = some (.ptr a :: l) := by
  rw [unwrapChain_ptr h k a o ho hcu]
  simp [hn, hc]

/-- The chain of a Traced Error at `a` in a new heap `h'`, when the error it wraps has
in the old heap a chain without Traced Error that the new heap left alone. -/
theorem chain_after (h h' : Heap) (a k : Nat) (E' : Error) (l : List ErrVal)
    (hx : unwrapChain h k E'.error = some l) (hag : ∀ b, ErrVal.ptr b ∈ l → h'[b]? = h[b]?)
    (hcount : tracedCount h l = 0) (hE' : h'[a]? = some (.traced E')) :
    unwrapChain h' (k + 1) (.ptr a) = some (.ptr a :: l) ∧
      tracedCount h' (.ptr a :: l) = 1 := by
  obtain ⟨hc', hcnt'⟩ := chain_agree h h' k _ l hx hag
  refine ⟨chain_head h' a k _ _ l hE' rfl rfl hc', ?_⟩
  rw [tracedCount_cons, hcnt', hcount, isTraced_of_lookup h' a E' hE']
  simp

/-- The same with the two layers of `errors.Wrap` between the Traced Error and `x`. -/
theorem chain_after_wrap (h h' : Heap) (a k : Nat) (E' : Error) (x : ErrVal) (m : String)
    (st : List Nat) (l : List ErrVal)
    (hx : unwrapChain h k x = some l) (hag : ∀ b, ErrVal.ptr b ∈ l → h'[b]? = h[b]?)
    (hcount : tracedCount h l = 0)
    (hm : h'[h.length]? = some (.withMessage x m))
    (hs : h'[h.length + 1]? = some (.withStack (.ptr h.length) st))
    (hE' : h'[a]? = some (.traced E')) (hlink : E'.error = .ptr (h.length + 1)) :
    unwrapChain h' (k + 3) (.ptr a) =
        some (.ptr a :: .ptr (h.length + 1) :: .ptr h.length :: l) ∧
      tracedCount h' (.ptr a :: .ptr (h.length + 1) :: .ptr h.length :: l) = 1 := by
  obtain ⟨hc', hcnt'⟩ := chain_agree h h' k _ l hx hag
  have c1 := chain_head h' h.length k _ x l hm rfl rfl hc'
  have c2 := chain_head h' (h.length + 1) (k + 1) _ _ _ hs rfl rfl c1
  have c3 := chain_head h' a (k + 2) _ _ _ hE' rfl (by simp [objNext, hlink]) c2
  refine ⟨c3, ?_⟩
  have t1 : isTraced h' (.ptr h.length) = false := by simp [isTraced, hm]
  have t2 : isTraced h' (.ptr (h.length + 1)) = false := by simp [isTraced, hs]
  rw [tracedCount_cons, tracedCount_cons, tracedCount_cons, hcnt', hcount,
    isTraced_of_lookup h' a E' hE', t1, t2]
  simp

/-- Text of a Traced Error at `a` in a new heap, from the old text of the error it wraps. -/
theorem text_after (h h' : Heap) (a k f : Nat) (E' : Error) (l : List ErrVal)
    (hx : unwrapChain h k E'.error = some l) (hag : ∀ b, ErrVal.ptr b ∈ l → h'[b]? = h[b]?)
    (hE' : h'[a]? = some (.traced E')) :
    errorText h' (f + 1) (.ptr a) = errorText h f E'.error := by
  rw [errorText_ptr, hE']
  simp only [objNext, Option.getD_some]
  exact errorText_congr h h' f k _ l hx (fun b hb => Or.inl (hag b hb))

/-- The same with the two layers of `errors.Wrap` between the Traced Error and `x`. -/
theorem text_after_wrap (h h' : Heap) (a k f : Nat) (E' : Error) (x : ErrVal) (m t : String)
    (st : List Nat) (l : List ErrVal)
    (hx : unwrapChain h k x = some l) (hag : ∀ b, ErrVal.ptr b ∈ l → h'[b]? = h[b]?)
    (hm : h'[h.length]? = some (.withMessage x m))
    (hs : h'[h.length + 1]? = some (.withStack (.ptr h.length) st))
    (hE' : h'[a]? = some (.traced E')) (hlink : E'.error = .ptr (h.length + 1))
    (ht : errorText h f x = .ok t) :
    errorText h' (f + 3) (.ptr a) = .ok (m ++ ": " ++ t) := by
  have hin : errorText h' f x = errorText h f x :=
    errorText_congr h h' f k x l hx (fun b hb => Or.inl (hag b hb))
  rw [errorText_ptr, hE']
  simp only [objNext, Option.getD_some, hlink]
  rw [errorText_ptr, hs]
  simp only [objNext, Option.getD_some]
  rw [errorText_ptr, hm]
  simp only [hin, ht]

theorem callStackTrace_of_tracer (h : Heap) (s : ErrVal) (hne : s ≠ .nilError)
    (hs : isStackTracer h s = true) : ∃ st, callStackTrace h s = .ok st := by
  cases s with
  | nil => simp [isStackTracer] at hs
  | nilError => exact absurd rfl hne
  | uncomparable ut um => simp [isStackTracer] at hs
  | ptr b =>
    rw [isStackTracer_ptr] at hs
    rcases ho : h[b]? with _ | o
    · simp [ho] at hs
    · cases o with
      | traced E => exact ⟨MarshallableStack.StackTrace E.stack, by simp [callStackTrace, ho]⟩
      | withStack i st => exact ⟨some st, by simp [callStackTrace, ho]⟩
      | withMessage c m => simp [ho, hasStackTrace] at hs
      | foreign m u st =>
        cases st with
        | none => simp [ho, hasStackTrace] at hs
        | some st => exact ⟨some st, by simp [callStackTrace, ho]⟩
      | custom m u ua st t =>
        cases st with
        | none => simp [ho, hasStackTrace] at hs
        | some st => exact ⟨some st, by simp [callStackTrace, ho]⟩

theorem sliceFrom1_MarshalStack (callers : List Nat) (hlen : 3 < callers.length) :
    ∃ s, sliceFrom1 (MarshalStack callers) = .ok (some s) := by
  unfold MarshalStack GetStackProgramCounter runtimeCallers
  have hskip : (wrapInt ((1 : Int) + 2)).toNat = 3 := by decide
  rw [hskip]
  rcases hd : callers.drop 3 with _ | ⟨pc, rest⟩
  · have := congrArg List.length hd
    simp at this
    omega
  · exact ⟨((pc :: rest).take maxDepth |>.map PCFrame.mk).tail, by simp [maxDepth, sliceFrom1]⟩

theorem sliceFrom1_MarshalStack_short (callers : List Nat) (hlen : callers.length ≤ 3) :
    sliceFrom1 (MarshalStack callers) = .error .panic := by
  unfold MarshalStack GetStackProgramCounter runtimeCallers
  have hskip : (wrapInt ((1 : Int) + 2)).toNat = 3 := by decide
  rw [hskip]
  have : callers.drop 3 = [] := List.drop_eq_nil_of_le (by omega)
  simp [this, sliceFrom1]

/-! ## What Trace returns, case by case -/

theorem ne_nil_of_chain_cons (h : Heap) (n : Nat) (e x : ErrVal) (l : List ErrVal)
    (hc : unwrapChain h n e = some (x :: l)) : e ≠ .nil := by
  rintro rfl
  have := unwrapChain_nil_inv h n _ hc
  simp at this

/-- Trace on a chain without stack tracer: a new Traced Error around `e`. -/
theorem Trace_fresh (h : Heap) (callers : List Nat) (n fuel : Nat) (e : ErrVal)
    (l : List ErrVal) (xs : kvpList) (s : MarshallableStack)
    (hne : e ≠ .nil) (hc : unwrapChain h n e = some l) (hfuel : n ≤ fuel)
    (hnone : l.find? (isStackTracer h) = none)
    (hs : sliceFrom1 (MarshalStack callers) = .ok s) :
    Trace h callers fuel e xs =
      .ok (h ++ [.traced { error := e, extraData := xs, stack := s }], some h.length) := by
  have hg := GetTrace_chain h fuel e l (unwrapChain_mono h n e l fuel hc hfuel)
  rw [hnone] at hg
  simp [Trace, hne, hg, hs, alloc]

theorem set_append_new (h : Heap) (x y : Obj) : (h ++ [x]).set h.length y = h ++ [y] := by
  induction h with
  | nil => rfl
  | cons o rest ih => simp [List.set, ih]

/-- Trace on a chain without Traced Error whose first stack tracer is the foreign `s`:
a new Traced Error around `s` with the frames of its stack trace. -/
theorem Trace_synth (h : Heap) (callers : List Nat) (n fuel : Nat) (e s : ErrVal)
    (l : List ErrVal) (xs : kvpList) (st : Option (List Nat))
    (hne : e ≠ .nil) (hc : unwrapChain h n e = some l) (hfuel : n ≤ fuel)
    (hf : firstTraced h l = none) (hsome : l.find? (isStackTracer h) = some s)
    (hst : callStackTrace h s = .ok st) :
    Trace h callers fuel e xs =
      .ok (h ++ [Obj.traced { error := s, extraData := goAppend none xs, stack := framesOf st }],
        some h.length) := by
  have hg := GetTrace_chain h fuel e l (unwrapChain_mono h n e l fuel hc hfuel)
  rw [hsome, hf] at hg
  simp only [hst] at hg
  have hl : (h ++ [Obj.traced { error := s, extraData := none, stack := framesOf st }])[h.length]? =
      some (.traced { error := s, extraData := none, stack := framesOf st }) :=
    getElem?_append_new h _ 0
  simp only [Trace, hne, if_false, hg, hl, set_append_new]

/-- Wrap on a chain without Traced Error: a new Traced Error around `errors.Wrap(e, m)`. -/
theorem Wrap_fresh (h : Heap) (callers : List Nat) (n fuel : Nat) (e : ErrVal)
    (l : List ErrVal) (m : String) (xs : kvpList) (s : MarshallableStack)
    (hne : e ≠ .nil) (hc : unwrapChain h n e = some l) (hfuel : n ≤ fuel)
    (hf : firstTraced h l = none)
    (hs : sliceFrom1 (MarshalStack callers) = .ok s) :
    Wrap h callers fuel e m xs =
      .ok (h ++ [.withMessage e m, .withStack (.ptr h.length) (runtimeCallers callers 3 maxDepth)]
            ++ [.traced { error := .ptr (h.length + 1), extraData := xs, stack := s }],
          some (h.length + 2)) := by
  have hAs := errorsAs_chain h fuel e l (unwrapChain_mono h n e l fuel hc hfuel)
  rw [hf] at hAs
  simp [Wrap, hne, hAs, errorsWrap_ne_nil h callers e m hne, hs, alloc]

theorem mem_of_find (h : Heap) (l : List ErrVal) (s : ErrVal)
    (hs : l.find? (isStackTracer h) = some s) : s ∈ l ∧ isStackTracer h s = true :=
  ⟨List.mem_of_find?_eq_some hs, by simpa using List.find?_some hs⟩

theorem tracedCount_suffix_zero (h : Heap) (pre sfx : List ErrVal)
    (hz : tracedCount h (pre ++ sfx) = 0) : tracedCount h sfx = 0 := by
  rw [tracedCount_append] at hz
  omega

/-- After Trace the returned error has exactly one Traced Error in its chain; Trace only
fails to return when the chain has no stack tracer and the capture is empty. -/
theorem Trace_step (h : Heap) (callers : List Nat) (n fuel : Nat) (e : ErrVal)
    (l : List ErrVal) (xs : kvpList)
    (hne : e ≠ .nil) (hc : unwrapChain h n e = some l) (hfuel : n ≤ fuel)
    (hinv : tracedCount h l ≤ 1) :
    (∃ h' a, Trace h callers fuel e xs = .ok (h', some a) ∧
        ∃ l', unwrapChain h' (n + 3) (.ptr a) = some l' ∧ tracedCount h' l' = 1) ∨
    (Trace h callers fuel e xs = .error .panic ∧ callers.length ≤ 3) := by
  rcases hf : firstTraced h l with _ | a
  · have hz := tracedCount_zero_of_firstTraced_none h l (unwrapChain_ptrs h n e l hc) hf
    rcases hfind : l.find? (isStackTracer h) with _ | s
    · by_cases hlen : 3 < callers.length
      · obtain ⟨s, hs⟩ := sliceFrom1_MarshalStack callers hlen
        left
        refine ⟨_, _, Trace_fresh h callers n fuel e l xs (some s) hne hc hfuel hfind hs, ?_⟩
        have hag : ∀ b, ErrVal.ptr b ∈ l →
            (h ++ [Obj.traced { error := e, extraData := xs, stack := some s }])[b]? = h[b]? := by
          intro b hb
          obtain ⟨b', o, hb', ho⟩ := unwrapChain_mem h n e l hc _ hb
          simp only [ErrVal.ptr.injEq] at hb'
          subst hb'
          exact getElem?_append_old h _ b (lookup_lt h b o ho)
        obtain ⟨c1, c2⟩ := chain_after h _ h.length n
          { error := e, extraData := xs, stack := some s } l hc hag hz (getElem?_append_new h _ 0)
        exact ⟨_, unwrapChain_mono _ _ _ _ (n + 3) c1 (by omega), c2⟩
      · right
        have hs := sliceFrom1_MarshalStack_short callers (by omega)
        have hg := GetTrace_chain h fuel e l (unwrapChain_mono h n e l fuel hc hfuel)
        rw [hfind] at hg
        exact ⟨by simp [Trace, hne, hg, hs], by omega⟩
    · obtain ⟨hmem, hst⟩ := mem_of_find h l s hfind
      obtain ⟨b, o, rfl, ho⟩ := unwrapChain_mem h n e l hc s hmem
      obtain ⟨st, hcs⟩ := callStackTrace_of_tracer h (.ptr b) (by simp) hst
      obtain ⟨pre, sfx, hEq, hsfx⟩ := unwrapChain_suffix h n e l hc _ hmem
      left
      refine ⟨_, _, Trace_synth h callers n fuel e (.ptr b) l xs st hne hc hfuel hf hfind hcs, ?_⟩
      have hag : ∀ c, ErrVal.ptr c ∈ sfx →
          (h ++ [Obj.traced (Error.mk (.ptr b) (goAppend none xs) (framesOf st))])[c]? =
            h[c]? := by
        intro c hcm
        obtain ⟨c', o', hc', ho'⟩ := unwrapChain_mem h n _ sfx hsfx _ hcm
        simp only [ErrVal.ptr.injEq] at hc'
        subst hc'
        exact getElem?_append_old h _ c (lookup_lt h c o' ho')
      obtain ⟨c1, c2⟩ := chain_after h _ h.length n
        (Error.mk (.ptr b) (goAppend none xs) (framesOf st)) sfx hsfx hag
        (tracedCount_suffix_zero h pre sfx (by rw [← hEq]; exact hz))
        (getElem?_append_new h _ 0)
      exact ⟨_, unwrapChain_mono _ _ _ _ (n + 3) c1 (by omega), c2⟩
  · obtain ⟨hmem, hta, _⟩ := firstTraced_some h a l hf
    obtain ⟨E, hE⟩ := lookup_of_isTraced h a hta
    obtain ⟨pre, sfx, hEq, hsfx⟩ := unwrapChain_suffix h n e l hc _ hmem
    left
    refine ⟨_, _, Trace_firstTraced h callers n fuel e l a E xs hc hfuel hf hE, ?_⟩
    have hsl : ∀ b, ErrVal.ptr b ∈ sfx → SameLinks h
        (h.set a (.traced { E with extraData := goAppend E.extraData xs })) b := by
      intro b _
      by_cases hba : b = a
      · subst hba
        exact Or.inr ⟨E, _, hE, getElem?_set_same h b _ (lookup_lt h b _ hE), rfl⟩
      · exact Or.inl (getElem?_set_other h a b _ hba)
    have c1 := unwrapChain_congr h _ n _ sfx hsfx hsl
    have c2 := tracedCount_congr h _ sfx (unwrapChain_ptrs h n _ sfx hsfx) hsl
    refine ⟨sfx, unwrapChain_mono _ _ _ _ (n + 3) c1 (by omega), ?_⟩
    rw [c2]
    have hin : ErrVal.ptr a ∈ sfx := by
      obtain ⟨_, _, _, _, hcase⟩ := unwrapChain_ptr_inv h n a sfx hsfx
      rcases hcase with ⟨_, rfl⟩ | ⟨_, _, _, _, rfl⟩ <;> simp
    have hpos := tracedCount_pos_of_mem h _ sfx hin hta
    have hle : tracedCount h sfx ≤ tracedCount h l := by
      rw [hEq, tracedCount_append]; omega
    omega

/-! ## What Wrap returns, case by case -/

/-- The chain below the first Traced Error of a chain with at most one Traced Error:
it is defined, avoids that Traced Error and holds no Traced Error. -/
theorem chain_below_traced (h : Heap) (n : Nat) (e : ErrVal) (l : List ErrVal) (a : Nat)
    (E : Error) (hc : unwrapChain h n e = some l) (hinv : tracedCount h l ≤ 1)
    (hmem : ErrVal.ptr a ∈ l) (hE : h[a]? = some (.traced E)) :
    ∃ k li, n = k + 1 ∧ unwrapChain h k E.error = some li ∧
      unwrapChain h (k + 1) (.ptr a) = some (.ptr a :: li) ∧
      ErrVal.ptr a ∉ li ∧ tracedCount h li = 0 := by
  obtain ⟨pre, sfx, hEq, hsfx⟩ := unwrapChain_suffix h n e l hc _ hmem
  obtain ⟨k, o, hk, ho, hcase⟩ := unwrapChain_ptr_inv h n a sfx hsfx
  rw [hE] at ho
  simp only [Option.some.injEq] at ho
  subst ho
  rcases hcase with ⟨hn, _⟩ | ⟨nx, li, hn, hli, rfl⟩
  · simp [objNext] at hn
  simp only [objNext, Option.some.injEq] at hn
  subst hn
  have hnd := unwrapChain_nodup h n _ _ hsfx
  subst hk
  refine ⟨k, li, rfl, hli, hsfx, (List.nodup_cons.1 hnd).1, ?_⟩
  have h1 : tracedCount h (.ptr a :: li) ≤ tracedCount h l := by
    rw [hEq, tracedCount_append]; omega
  rw [tracedCount_cons, isTraced_of_lookup h a E hE] at h1
  simp only [if_true] at h1
  omega

/-- After Wrap the returned error has exactly one Traced Error in its chain; Wrap only
fails to return when the chain has no Traced Error and the capture is empty. -/
theorem Wrap_step (h : Heap) (callers : List Nat) (n fuel : Nat) (e : ErrVal)
    (l : List ErrVal) (m : String) (xs : kvpList)
    (hne : e ≠ .nil) (hc : unwrapChain h n e = some l) (hfuel : n ≤ fuel)
    (hinv : tracedCount h l ≤ 1) :
    (∃ h' a, Wrap h callers fuel e m xs = .ok (h', some a) ∧
        ∃ l', unwrapChain h' (n + 3) (.ptr a) = some l' ∧ tracedCount h' l' = 1) ∨
    (Wrap h callers fuel e m xs = .error .panic ∧ callers.length ≤ 3) := by
  rcases hf : firstTraced h l with _ | a
  · have hz := tracedCount_zero_of_firstTraced_none h l (unwrapChain_ptrs h n e l hc) hf
    by_cases hlen : 3 < callers.length
    · obtain ⟨s, hs⟩ := sliceFrom1_MarshalStack callers hlen
      left
      refine ⟨_, _, Wrap_fresh h callers n fuel e l m xs (some s) hne hc hfuel hf hs, ?_⟩
      set h' : Heap := h ++ [Obj.withMessage e m,
        Obj.withStack (.ptr h.length) (runtimeCallers callers 3 maxDepth)] ++
        [Obj.traced (Error.mk (.ptr (h.length + 1)) xs (some s))] with hh'
      have hag : ∀ b, ErrVal.ptr b ∈ l → h'[b]? = h[b]? := by
        intro b hb
        obtain ⟨b', o, hb', ho⟩ := unwrapChain_mem h n e l hc _ hb
        simp only [ErrVal.ptr.injEq] at hb'
        subst hb'
        rw [hh', List.append_assoc]
        exact getElem?_append_old h _ b (lookup_lt h b o ho)
      have l0 : h'[h.length]? = some (Obj.withMessage e m) := by
        rw [hh', List.append_assoc]
        exact getElem?_append_new h _ 0
      have l1 : h'[h.length + 1]? =
          some (Obj.withStack (.ptr h.length) (runtimeCallers callers 3 maxDepth)) := by
        rw [hh', List.append_assoc]
        exact getElem?_append_new h _ 1
      have l2 : h'[h.length + 2]? =
          some (Obj.traced (Error.mk (.ptr (h.length + 1)) xs (some s))) := by
        rw [hh', List.append_assoc]
        exact getElem?_append_new h _ 2
      obtain ⟨c1, c2⟩ := chain_after_wrap h h' (h.length + 2) n _ e m _ l hc hag hz l0 l1 l2 rfl
      exact ⟨_, unwrapChain_mono _ _ _ _ (n + 3) c1 (by omega), c2⟩
    · right
      have hs := sliceFrom1_MarshalStack_short callers (by omega)
      have hAs := errorsAs_chain h fuel e l (unwrapChain_mono h n e l fuel hc hfuel)
      rw [hf] at hAs
      exact ⟨by simp [Wrap, hne, hAs, hs], by omega⟩
  · obtain ⟨hmem, hta, _⟩ := firstTraced_some h a l hf
    obtain ⟨E, hE⟩ := lookup_of_isTraced h a hta
    obtain ⟨k, li, hk, hli, _, hanot, hz⟩ := chain_below_traced h n e l a E hc hinv hmem hE
    have ha : a < h.length := lookup_lt h a _ hE
    left
    refine ⟨_, _, Wrap_firstTraced h callers n fuel e l a E m xs hc hfuel hf hE, ?_⟩
    by_cases hnil : E.error = .nil
    · have hw : errorsWrap h callers E.error m = (h, .nil) := by simp [errorsWrap, hnil]
      rw [hw]
      simp only
      have hli' : li = [] := by
        rw [hnil] at hli
        exact unwrapChain_nil_inv h k li hli
      subst hli'
      obtain ⟨c1, c2⟩ := chain_after h (h.set a (Obj.traced (Error.mk .nil
        (goAppend E.extraData xs) E.stack))) a k (Error.mk .nil (goAppend E.extraData xs) E.stack)
        [] (by simpa [hnil] using hli) (by simp) hz (getElem?_set_same h a _ ha)
      exact ⟨_, unwrapChain_mono _ _ _ _ (n + 3) c1 (by omega), c2⟩
    · rw [errorsWrap_ne_nil h callers E.error m hnil]
      simp only
      set h1 : Heap := h ++ [Obj.withMessage E.error m,
        Obj.withStack (.ptr h.length) (runtimeCallers callers 3 maxDepth)] with hh1
      set E' : Error := Error.mk (.ptr (h.length + 1)) (goAppend E.extraData xs) E.stack with hE'
      have hlen1 : h1.length = h.length + 2 := by simp [hh1]
      have hag : ∀ b, ErrVal.ptr b ∈ li → (h1.set a (Obj.traced E'))[b]? = h[b]? := by
        intro b hb
        obtain ⟨b', o, hb', ho⟩ := unwrapChain_mem h k _ li hli _ hb
        simp only [ErrVal.ptr.injEq] at hb'
        subst hb'
        have hba : b ≠ a := by
          rintro rfl
          exact hanot hb
        rw [getElem?_set_other h1 a b _ hba, hh1]
        exact getElem?_append_old h _ b (lookup_lt h b o ho)
      have l0 : (h1.set a (Obj.traced E'))[h.length]? = some (Obj.withMessage E.error m) := by
        rw [getElem?_set_other h1 a _ _ (by omega), hh1]
        exact getElem?_append_new h _ 0
      have l1 : (h1.set a (Obj.traced E'))[h.length + 1]? =
          some (Obj.withStack (.ptr h.length) (runtimeCallers callers 3 maxDepth)) := by
        rw [getElem?_set_other h1 a _ _ (by omega), hh1]
        exact getElem?_append_new h _ 1
      have l2 : (h1.set a (Obj.traced E'))[a]? = some (Obj.traced E') :=
        getElem?_set_same h1 a _ (by omega)
      obtain ⟨c1, c2⟩ := chain_after_wrap h _ a k E' E.error m _ li hli hag hz l0 l1 l2 rfl
      exact ⟨_, unwrapChain_mono _ _ _ _ (n + 3) c1 (by omega), c2⟩

/-! ## Small facts used by the claims -/

theorem HasTrace_head (h : Heap) (fuel a : Nat) (E : Error) (hE : h[a]? = some (.traced E))
    (hfuel : 1 ≤ fuel) : HasTrace h fuel (.ptr a) = .ok E.stack.isSome := by
  obtain ⟨k, rfl⟩ : ∃ k, fuel = k + 1 := ⟨fuel - 1, by omega⟩
  simp [HasTrace, errorsAs, hE]

theorem fuel_pos_of_chain (h : Heap) (n : Nat) (e : ErrVal) (l : List ErrVal)
    (hc : unwrapChain h n e = some l) : 1 ≤ n := by
  cases n with
  | zero => simp [unwrapChain] at hc
  | succ k => omega

theorem framesOf_foldl (acc : MarshallableStack) : ∀ (st : List Nat),
    st ≠ [] →
    (st.foldl (fun out frame => goAppend out (some [PCFrame.mk frame])) acc).isSome = true := by
  intro st
  induction st generalizing acc with
  | nil => intro hne; exact absurd rfl hne
  | cons x rest ih =>
    intro _
    by_cases hr : rest = []
    · subst hr
      simp [goAppend]
    · simp only [List.foldl_cons]
      exact ih _ hr

/-- A foreign stack trace with at least one frame gives a non-nil stack. -/
theorem framesOf_isSome (st : Option (List Nat)) (hne : elems st ≠ []) :
    (framesOf st).isSome = true :=
  framesOf_foldl none (elems st) hne

theorem firstTraced_head (h : Heap) (a : Nat) (rest : List ErrVal)
    (ht : isTraced h (.ptr a) = true) : firstTraced h (.ptr a :: rest) = some a := by
  simp [firstTraced_cons, ht]

theorem chain_head_mem (h : Heap) (n a : Nat) (l : List ErrVal)
    (hc : unwrapChain h n (.ptr a) = some l) : ∃ rest, l = .ptr a :: rest := by
  obtain ⟨_, _, _, _, hcase⟩ := unwrapChain_ptr_inv h n a l hc
  rcases hcase with ⟨_, rfl⟩ | ⟨_, l', _, _, rfl⟩
  · exact ⟨[], rfl⟩
  · exact ⟨l', rfl⟩

/-! ## Text after Wrap -/

/-- The chain of a Traced Error at `a` whose wrapped error is the result of
`errors.Wrap(x, m)`, allocated at the end of the old heap. -/
theorem chain_wrap_layers (h h' : Heap) (a k : Nat) (E' : Error) (x : ErrVal) (m : String)
    (st : List Nat) (l : List ErrVal)
    (hx : unwrapChain h k x = some l) (hag : ∀ b, ErrVal.ptr b ∈ l → h'[b]? = h[b]?)
    (hm : h'[h.length]? = some (.withMessage x m))
    (hs : h'[h.length + 1]? = some (.withStack (.ptr h.length) st))
    (hE' : h'[a]? = some (.traced E')) (hlink : E'.error = .ptr (h.length + 1)) :
    unwrapChain h' (k + 3) (.ptr a) =
        some (.ptr a :: .ptr (h.length + 1) :: .ptr h.length :: l) := by
  obtain ⟨hc', _⟩ := chain_agree h h' k _ l hx hag
  have c1 := chain_head h' h.length k _ x l hm rfl rfl hc'
  have c2 := chain_head h' (h.length + 1) (k + 1) _ _ _ hs rfl rfl c1
  exact chain_head h' a (k + 2) _ _ _ hE' rfl (by simp [objNext, hlink]) c2

/-- One Wrap on an error that is itself the Traced Error of its chain, or whose chain has
none: the returned Traced Error has the text `m + ": " + t` and a defined chain. -/
theorem Wrap_text_step (h : Heap) (callers : List Nat) (n fuel f : Nat) (err : ErrVal)
    (l : List ErrVal) (m : String) (xs : kvpList) (t : String)
    (hne : err ≠ .nil) (hc : unwrapChain h n err = some l) (hfuel : n ≤ fuel)
    (hcap : 3 < callers.length) (ht : errorText h f err = .ok t)
    (hA : ∀ p, firstTraced h l = some p → err = .ptr p) :
    ∃ h1 p1 l1, Wrap h callers fuel err m xs = .ok (h1, some p1) ∧
      unwrapChain h1 (n + 3) (.ptr p1) = some l1 ∧ isTraced h1 (.ptr p1) = true ∧
      errorText h1 (f + 3) (.ptr p1) = .ok (m ++ ": " ++ t) := by
  rcases hf : firstTraced h l with _ | p
  · obtain ⟨s, hs⟩ := sliceFrom1_MarshalStack callers hcap
    have hw := Wrap_fresh h callers n fuel err l m xs (some s) hne hc hfuel hf hs
    set h' : Heap := h ++ [Obj.withMessage err m,
      Obj.withStack (.ptr h.length) (runtimeCallers callers 3 maxDepth)] ++
      [Obj.traced (Error.mk (.ptr (h.length + 1)) xs (some s))] with hh'
    have hag : ∀ b, ErrVal.ptr b ∈ l → h'[b]? = h[b]? := by
      intro b hb
      obtain ⟨b', o, hb', ho⟩ := unwrapChain_mem h n err l hc _ hb
      simp only [ErrVal.ptr.injEq] at hb'
      subst hb'
      rw [hh', List.append_assoc]
      exact getElem?_append_old h _ b (lookup_lt h b o ho)
    have l0 : h'[h.length]? = some (Obj.withMessage err m) := by
      rw [hh', List.append_assoc]
      exact getElem?_append_new h _ 0
    have l1 : h'[h.length + 1]? =
        some (Obj.withStack (.ptr h.length) (runtimeCallers callers 3 maxDepth)) := by
      rw [hh', List.append_assoc]
      exact getElem?_append_new h _ 1
    have l2 : h'[h.length + 2]? =
        some (Obj.traced (Error.mk (.ptr (h.length + 1)) xs (some s))) := by
      rw [hh', List.append_assoc]
      exact getElem?_append_new h _ 2
    exact ⟨h', h.length + 2, _, hw,
      chain_wrap_layers h h' (h.length + 2) n _ err m _ l hc hag l0 l1 l2 rfl,
      isTraced_of_lookup h' _ _ l2,
      text_after_wrap h h' (h.length + 2) n f _ err m t _ l hc hag l0 l1 l2 rfl ht⟩
  · have hep := hA p hf
    subst hep
    obtain ⟨_, hta, _⟩ := firstTraced_some h p l hf
    obtain ⟨E, hE⟩ := lookup_of_isTraced h p hta
    have hw := Wrap_firstTraced h callers n fuel (.ptr p) l p E m xs hc hfuel hf hE
    have htxt := errorText_after_wrap h callers n f p E
      (Error.mk (errorsWrap h callers E.error m).2 (goAppend E.extraData xs) E.stack) l m t hc hE
      rfl ht
    have hnil : E.error ≠ .nil := by
      intro hnil
      cases f with
      | zero => simp [errorText] at ht
      | succ f' =>
        rw [errorText_ptr, hE] at ht
        simp only [objNext, Option.getD_some, hnil] at ht
        cases f' <;> simp [errorText] at ht
    obtain ⟨k, o, hk, ho, hcase⟩ := unwrapChain_ptr_inv h n p l hc
    rw [hE] at ho
    simp only [Option.some.injEq] at ho
    subst ho
    rcases hcase with ⟨hn, _⟩ | ⟨nx, li, hn, hli, rfl⟩
    · simp [objNext] at hn
    simp only [objNext, Option.some.injEq] at hn
    subst hn
    have hanot : ErrVal.ptr p ∉ li := (List.nodup_cons.1 (unwrapChain_nodup h n _ _ hc)).1
    have ha : p < h.length := lookup_lt h p _ hE
    rw [errorsWrap_ne_nil h callers E.error m hnil] at hw htxt
    simp only at hw htxt
    set h1 : Heap := h ++ [Obj.withMessage E.error m,
      Obj.withStack (.ptr h.length) (runtimeCallers callers 3 maxDepth)] with hh1
    set E' : Error := Error.mk (.ptr (h.length + 1)) (goAppend E.extraData xs) E.stack with hE'
    have hlen1 : h1.length = h.length + 2 := by simp [hh1]
    have hag : ∀ b, ErrVal.ptr b ∈ li → (h1.set p (Obj.traced E'))[b]? = h[b]? := by
      intro b hb
      obtain ⟨b', o, hb', ho⟩ := unwrapChain_mem h k _ li hli _ hb
      simp only [ErrVal.ptr.injEq] at hb'
      subst hb'
      have hba : b ≠ p := by
        rintro rfl
        exact hanot hb
      rw [getElem?_set_other h1 p b _ hba, hh1]
      exact getElem?_append_old h _ b (lookup_lt h b o ho)
    have l0 : (h1.set p (Obj.traced E'))[h.length]? = some (Obj.withMessage E.error m) := by
      rw [getElem?_set_other h1 p _ _ (by omega), hh1]
      exact getElem?_append_new h _ 0
    have l1 : (h1.set p (Obj.traced E'))[h.length + 1]? =
        some (Obj.withStack (.ptr h.length) (runtimeCallers callers 3 maxDepth)) := by
      rw [getElem?_set_other h1 p _ _ (by omega), hh1]
      exact getElem?_append_new h _ 1
    have l2 : (h1.set p (Obj.traced E'))[p]? = some (Obj.traced E') :=
      getElem?_set_same h1 p _ (by omega)
    have c1 := chain_wrap_layers h _ p k E' E.error m _ li hli hag l0 l1 l2 rfl
    exact ⟨_, p, _, hw, unwrapChain_mono _ _ _ _ (n + 3) c1 (by omega),
      isTraced_of_lookup _ _ _ l2, errorText_mono _ _ _ _ (f + 3) htxt (by omega)⟩

/-! ## The invariant of the states a client reaches -/

/-- Every state a client reaches holds a non-nil error whose chain has at most one Traced
Error, and exactly one right after a call of Trace or Wrap. -/
theorem Reach_inv (h0 : Heap) (e0 : ErrVal) (hne : e0 ≠ .nil) (hinv0 : AtMostOneTraced h0 e0)
    (ret : Bool) (h : Heap) (e : ErrVal) (hr : Reach h0 e0 ret h e) :
    e ≠ .nil ∧ AtMostOneTraced h e ∧ (ret = true → OneTraced h e) := by
  induction hr with
  | start => exact ⟨hne, hinv0, by simp⟩
  | layer ret h e o _ hnt hcu hnx ih =>
    obtain ⟨_, ⟨n, l, hc, hcnt⟩, _⟩ := ih
    refine ⟨by simp, ⟨n + 1, .ptr h.length :: l, ?_, ?_⟩, by simp⟩
    · have hag : ∀ b, ErrVal.ptr b ∈ l → (h ++ [o])[b]? = h[b]? := by
        intro b hb
        obtain ⟨b', o', hb', ho'⟩ := unwrapChain_mem h n e l hc _ hb
        simp only [ErrVal.ptr.injEq] at hb'
        subst hb'
        exact getElem?_append_old h _ b (lookup_lt h b o' ho')
      exact chain_head (h ++ [o]) h.length n o e l (getElem?_append_new h [o] 0) hcu hnx
        (chain_agree h _ n e l hc hag).1
    · have hag : ∀ b, ErrVal.ptr b ∈ l → (h ++ [o])[b]? = h[b]? := by
        intro b hb
        obtain ⟨b', o', hb', ho'⟩ := unwrapChain_mem h n e l hc _ hb
        simp only [ErrVal.ptr.injEq] at hb'
        subst hb'
        exact getElem?_append_old h _ b (lookup_lt h b o' ho')
      have hnew : isTraced (h ++ [o]) (.ptr h.length) = false := by
        have hl : (h ++ [o])[h.length]? = some o := getElem?_append_new h [o] 0
        rw [isTraced_ptr, hl]
        simpa using hnt
      rw [tracedCount_cons, (chain_agree h _ n e l hc hag).2, hnew]
      simpa using hcnt
  | trace ret h e callers fuel xs h' p _ hT ih =>
    obtain ⟨hne', ⟨n, l, hc, hcnt⟩, _⟩ := ih
    have hT' := Trace_mono h callers fuel (max fuel n) e xs (h', p) n l hc hT (le_max_left _ _)
    rcases Trace_step h callers n (max fuel n) e l xs hne' hc (le_max_right _ _) hcnt with
      ⟨h'', a, hT'', l', hc', hcnt'⟩ | ⟨hpanic, _⟩
    · rw [hT''] at hT'
      simp only [Except.ok.injEq, Prod.mk.injEq] at hT'
      obtain ⟨rfl, rfl⟩ := hT'
      exact ⟨by simp [toErr], ⟨_, l', hc', by omega⟩, fun _ => ⟨_, l', hc', hcnt'⟩⟩
    · rw [hpanic] at hT'
      simp at hT'
  | wrap ret h e callers fuel m xs h' p _ hW ih =>
    obtain ⟨hne', ⟨n, l, hc, hcnt⟩, _⟩ := ih
    have hW' := Wrap_mono h callers fuel (max fuel n) e m xs (h', p) n l hc hW (le_max_left _ _)
    rcases Wrap_step h callers n (max fuel n) e l m xs hne' hc (le_max_right _ _) hcnt with
      ⟨h'', a, hW'', l', hc', hcnt'⟩ | ⟨hpanic, _⟩
    · rw [hW''] at hW'
      simp only [Except.ok.injEq, Prod.mk.injEq] at hW'
      obtain ⟨rfl, rfl⟩ := hW'
      exact ⟨by simp [toErr], ⟨_, l', hc', by omega⟩, fun _ => ⟨_, l', hc', hcnt'⟩⟩
    · rw [hpanic] at hW'
      simp at hW'

/-! ## Foreign stack traces, As against GetTrace, and the loop of MarshalString -/

theorem framesOf_foldl_elems : ∀ (st : List Nat) (acc : MarshallableStack),
    elems (st.foldl (fun out frame => goAppend out (some [PCFrame.mk frame])) acc) =
      elems acc ++ st.map PCFrame.mk := by
  intro st
  induction st with
  | nil => intro acc; simp
  | cons x rest ih =>
    intro acc
    simp only [List.foldl_cons, List.map_cons]
    rw [ih, elems_goAppend]
    simp [elems]

/-- The frames `GetTrace` builds from a foreign stack trace: one per location, in order. -/
theorem framesOf_elems (st : Option (List Nat)) :
    elems (framesOf st) = (elems st).map PCFrame.mk := by
  unfold framesOf
  rw [framesOf_foldl_elems]
  simp [elems]

theorem firstTraced_none_of_count (h : Heap) (l : List ErrVal) (hz : tracedCount h l = 0) :
    firstTraced h l = none := by
  rcases hf : firstTraced h l with _ | a
  · rfl
  · obtain ⟨hm, ht, _⟩ := firstTraced_some h a l hf
    have := tracedCount_pos_of_mem h _ l hm ht
    omega

/-- On a chain, what `errors.As` finds, `GetTrace` returns, with the same fuel and the heap
unchanged. -/
theorem GetTrace_of_errorsAs (h : Heap) : ∀ (n : Nat) (e : ErrVal) (a : Nat) (k : Nat)
    (l : List ErrVal), unwrapChain h k e = some l →
    errorsAs h n e = .ok (some (some a)) → GetTrace h n e = .ok (h, some a) := by
  intro n
  induction n with
  | zero => intro e a k l _ hAs; simp [errorsAs] at hAs
  | succ n ih =>
    intro e a k l hc hAs
    cases e with
    | nil => simp [errorsAs] at hAs
    | nilError => simp [errorsAs] at hAs
    | uncomparable ut um => simp [errorsAs] at hAs
    | ptr b =>
      by_cases hs : isStackTracer h (.ptr b) = true
      · rw [GetTrace]
        simp [hs, hAs]
      · obtain ⟨k', o, hk, ho, hcase⟩ := unwrapChain_ptr_inv h k b l hc
        subst hk
        obtain ⟨o0, ho0, hcu⟩ := unwrapChain_ptr_plain h k' b l hc
        have ho0o : o0 = o := by
          rw [ho] at ho0
          exact (Option.some.inj ho0).symm
        subst ho0o
        have hAs' := hAs
        rw [errorsAs_ptr h n b o0 ho hcu] at hAs'
        have hnt : isTracedObj o0 = false := by
          rw [isStackTracer_ptr, ho] at hs
          cases o0 <;> simp_all [hasStackTrace, isTracedObj]
        simp only [hnt, if_false, Bool.false_eq_true] at hAs'
        rcases hcase with ⟨hn, _⟩ | ⟨nx, l', hn, hl', _⟩
        · simp [hn] at hAs'
        · simp only [hn] at hAs'
          by_cases hnil : nx = .nil
          · simp [hnil] at hAs'
          · simp only [hnil, if_false] at hAs'
            rw [GetTrace]
            simp only [reduceCtorEq, if_false, hs, Bool.false_eq_true, isUnwrapper_ptr, ho,
              hn, Option.isSome_some, if_true, callUnwrap_ptr h b o0 nx ho hn]
            exact ih nx a k' l' hl' hAs'

/-- When `HasTrace` is true, `errors.As` found a Traced Error with a non-nil stack. -/
theorem HasTrace_true_inv (h : Heap) (fuel : Nat) (err : ErrVal)
    (hT : HasTrace h fuel err = .ok true) :
    ∃ a E, errorsAs h fuel err = .ok (some (some a)) ∧ h[a]? = some (.traced E) ∧
      E.stack ≠ none := by
  unfold HasTrace at hT
  by_cases hnil : err = .nil
  · simp [hnil] at hT
  · simp only [hnil, if_false] at hT
    rcases hAs : errorsAs h fuel err with f | r
    · simp [hAs] at hT
    · rcases r with _ | p
      · simp [hAs] at hT
      · rcases p with _ | a
        · simp [hAs] at hT
        · simp only [hAs] at hT
          rcases ho : h[a]? with _ | o
          · simp [ho] at hT
          · cases o with
            | traced E =>
              simp only [ho, Except.ok.injEq] at hT
              exact ⟨a, E, rfl, ho, Option.isSome_iff_ne_none.1 hT⟩
            | _ => simp [ho] at hT

theorem intercalate_go_eq_foldl (sep : String) : ∀ (rest : List String) (acc : String),
    String.intercalate.go acc sep rest = rest.foldl (fun out line => out ++ sep ++ line) acc := by
  intro rest
  induction rest with
  | nil => intro acc; rfl
  | cons x xs ih => intro acc; simp [String.intercalate.go, ih]

/-- The loop of `MarshalString` from an index past the first frame: every remaining frame
is written after a newline. -/
theorem marshalStringLoop_tail (rt : FuncTable) (m : MarshallableStack) :
    ∀ (rest pre : List PCFrame) (out : String), elems m = pre ++ rest → pre ≠ [] →
    marshalStringLoop rt m rest.length pre.length out =
      .ok (rest.foldl (fun o f => o ++ "\n" ++ frameLine rt f) out) := by
  intro rest
  induction rest with
  | nil => intro pre out _ _; rfl
  | cons f fs ih =>
    intro pre out hm hpre
    have hpos : 0 < pre.length := List.length_pos.2 hpre
    have hget : (elems m)[pre.length]? = some f := by
      rw [hm, List.getElem?_append_right (Nat.le_refl _)]
      simp
    have hstep := ih (pre ++ [f]) (out ++ "\n" ++ frameLine rt f) (by simp [hm]) (by simp)
    simp only [List.length_append, List.length_singleton] at hstep
    simp only [List.length_cons, marshalStringLoop, MarshallableStack.MarshalStringFrame, hget,
      hpos, if_true, List.foldl_cons]
    exact hstep

/-! ## Where the loop of Is panics -/

/-- Outside the chains of pointers the loop of `Is` can panic.  `Trace` of the typed nil
`*Error` builds a Traced Error around it, and `Is` on that one calls `Unwrap()` on the nil
pointer; and on a Traced Error around a value of an uncomparable type, `Is` with a target of
the same type panics on `err == target`. -/
theorem Is_panics_off_chain :
    Trace [] sampleCallers 2 .nilError none = .ok (nilTracedHeap, some 0) ∧
    unwrapChain nilTracedHeap 4 .nilError = none ∧
    Error.Is nilTracedHeap 4 (some 0) (.ptr 0) = .error .panic ∧
    unwrapChain uncomparableHeap 4 (.uncomparable 0 "a") = none ∧
    Error.Is uncomparableHeap 4 (some 0) (.uncomparable 0 "b") = .error .panic ∧
    Error.Is uncomparableHeap 4 (some 0) (.uncomparable 1 "b") = .ok false := by
  decide

/-! ## The claims -/

/-- C1: when the unwrap chain of `err` holds a Traced Error `E` (at address `a`, the only
one in the chain), `Trace(err, xs...)` returns `E` itself; afterwards the entries of `E` are
the previous ones followed by `xs`, and the wrapped error and the stack of `E` are unchanged. -/
theorem Trace_appends_to_existing (h : Heap) (callers : List Nat) (n fuel : Nat) (err : ErrVal)
    (l : List ErrVal) (a : Nat) (E : Error) (xs : kvpList)
    (hc : unwrapChain h n err = some l) (hfuel : n ≤ fuel)
    (hmem : ErrVal.ptr a ∈ l) (hE : h[a]? = some (.traced E))
    (hinv : tracedCount h l ≤ 1) :
    ∃ h' E', Trace h callers fuel err xs = .ok (h', some a) ∧
      h'[a]? = some (.traced E') ∧
      elems E'.extraData = elems E.extraData ++ elems xs ∧
      (elems E'.extraData).length = (elems E.extraData).length + (elems xs).length ∧
      E'.error = E.error ∧ E'.stack = E.stack := by
  have hf := firstTraced_of_count h a l hmem (isTraced_of_lookup h a E hE) hinv
  refine ⟨_, _, Trace_firstTraced h callers n fuel err l a E xs hc hfuel hf hE,
    getElem?_set_same h a _ (lookup_lt h a _ hE), ?_, ?_, rfl, rfl⟩
  · exact elems_goAppend _ _
  · simp [elems_goAppend]

theorem Trace_appends_to_existing_witness :
    unwrapChain sampleHeap 4 (.ptr 2) = some [.ptr 2, .ptr 1, .ptr 0] ∧
    ∃ h' E', Trace sampleHeap sampleCallers 4 (.ptr 2) (some [⟨"k2", "v2"⟩]) = .ok (h', some 1) ∧
      h'[1]? = some (.traced E') ∧
      elems E'.extraData = elems (some [(⟨"k", "v"⟩ : ErrorKVP)]) ++ elems (some [⟨"k2", "v2"⟩]) ∧
      (elems E'.extraData).length =
        (elems (some [(⟨"k", "v"⟩ : ErrorKVP)])).length + (elems (some [(⟨"k2", "v2"⟩ : ErrorKVP)])).length ∧
      E'.error = .ptr 0 ∧ E'.stack = some [⟨7⟩] :=
  ⟨by decide,
   Trace_appends_to_existing sampleHeap sampleCallers 4 4 (.ptr 2) [.ptr 2, .ptr 1, .ptr 0] 1
     { error := .ptr 0, extraData := some [⟨"k", "v"⟩], stack := some [⟨7⟩] }
     (some [⟨"k2", "v2"⟩]) (by decide) (by decide) (by decide) (by decide) (by decide)⟩

/-- C2: `Trace(nil, xs...)` returns nil and `Wrap(nil, m, xs...)` returns nil, and the
heap is untouched. -/
theorem Trace_Wrap_nil (h : Heap) (callers : List Nat) (fuel : Nat) (m : String) (xs : kvpList) :
    Trace h callers fuel .nil xs = .ok (h, none) ∧ Wrap h callers fuel .nil m xs = .ok (h, none) := by
  simp [Trace, Wrap]

/-- C4: when the unwrap chain of `err` holds a Traced Error `E` (at address `a`, the only
one in the chain), `Wrap(err, m, xs...)` returns `E` itself; the stack of `E` is unchanged,
its entries are the previous ones followed by `xs`, and its text, `t` before the call, is
`m + ": " + t` after it. -/
theorem Wrap_existing (h : Heap) (callers : List Nat) (n fuel : Nat) (err : ErrVal)
    (l : List ErrVal) (a : Nat) (E : Error) (m : String) (xs : kvpList)
    (hc : unwrapChain h n err = some l) (hfuel : n ≤ fuel)
    (hmem : ErrVal.ptr a ∈ l) (hE : h[a]? = some (.traced E))
    (hinv : tracedCount h l ≤ 1) :
    ∃ h' E', Wrap h callers fuel err m xs = .ok (h', some a) ∧
      h'[a]? = some (.traced E') ∧ E'.stack = E.stack ∧
      elems E'.extraData = elems E.extraData ++ elems xs ∧
      ∀ (f : Nat) (t : String), errorText h f (.ptr a) = .ok t →
        errorText h' (f + 2) (.ptr a) = .ok (m ++ ": " ++ t) := by
  have hf := firstTraced_of_count h a l hmem (isTraced_of_lookup h a E hE) hinv
  obtain ⟨pre, sfx, _, hsfx⟩ := unwrapChain_suffix h n err l hc _ hmem
  have ha : a < h.length := lookup_lt h a _ hE
  have hlen : a < (errorsWrap h callers E.error m).1.length := by
    unfold errorsWrap
    by_cases hnil : E.error = .nil
    · simp [hnil, ha]
    · simp [hnil, alloc]; omega
  refine ⟨_, _, Wrap_firstTraced h callers n fuel err l a E m xs hc hfuel hf hE,
    getElem?_set_same _ a _ hlen, rfl, elems_goAppend _ _, ?_⟩
  intro f t ht
  exact errorText_after_wrap h callers n f a E _ sfx m t hsfx hE rfl ht

theorem Wrap_existing_witness :
    unwrapChain sampleHeap 4 (.ptr 2) = some [.ptr 2, .ptr 1, .ptr 0] ∧
    errorText sampleHeap 3 (.ptr 1) = .ok "root" ∧
    ∃ h' E', Wrap sampleHeap sampleCallers 4 (.ptr 2) "read" (some [⟨"k2", "v2"⟩]) = .ok (h', some 1) ∧
      h'[1]? = some (.traced E') ∧ E'.stack = some [⟨7⟩] ∧
      elems E'.extraData = elems (some [(⟨"k", "v"⟩ : ErrorKVP)]) ++ elems (some [⟨"k2", "v2"⟩]) ∧
      errorText h' (3 + 2) (.ptr 1) = .ok ("read" ++ ": " ++ "root") :=
  ⟨by decide, by decide,
   match Wrap_existing sampleHeap sampleCallers 4 4 (.ptr 2) [.ptr 2, .ptr 1, .ptr 0] 1
     { error := .ptr 0, extraData := some [⟨"k", "v"⟩], stack := some [⟨7⟩] } "read"
     (some [⟨"k2", "v2"⟩]) (by decide) (by decide) (by decide) (by decide) (by decide) with
   | ⟨h', E', hw, hl, hs, he, ht⟩ => ⟨h', E', hw, hl, hs, he, ht 3 "root" (by decide)⟩⟩

/-- C7 as stated fails.  For the error `errors.Join` makes around a Traced Error with a
stack, `HasTrace` is true, `errors.As` having walked `Unwrap() []error`, although the error
has no `Unwrap() error` method: its unwrap chain is the error alone, and that is no Traced
Error.  And for the typed nil `*Error` that `Trace(nil)` returns, a non-nil `error` holding
no Traced Error, `HasTrace` is not false: it panics on `tmp.stack`. -/
theorem HasTrace_not_iff :
    HasTrace joinHeap 4 (.ptr 2) = .ok true ∧
    errorsUnwrap joinHeap (.ptr 2) = .ok .nil ∧
    isTraced joinHeap (.ptr 2) = false ∧
    Trace zeroHeap sampleCallers 1 .nil none = .ok (zeroHeap, none) ∧
    toErr none ≠ ErrVal.nil ∧
    HasTrace zeroHeap 4 (toErr none) = .error .panic := by
  decide

/-- C7, amended: for an error `err` (nil included: its chain is empty) with a defined unwrap
chain (finite, every error of it a non-nil pointer, so no typed nil `*Error`, to an error of
a plain type: no `As` method, no `Unwrap() []error`) that holds at most one Traced Error,
`HasTrace(err)` returns, and it is true exactly when the chain holds a Traced Error whose
stack is non-nil. -/
theorem HasTrace_iff (h : Heap) (n fuel : Nat) (err : ErrVal) (l : List ErrVal)
    (hc : unwrapChain h n err = some l) (hfuel : n ≤ fuel) (hinv : tracedCount h l ≤ 1) :
    ∃ b, HasTrace h fuel err = .ok b ∧
      (b = true ↔ ∃ a E, ErrVal.ptr a ∈ l ∧ h[a]? = some (.traced E) ∧ E.stack ≠ none) := by
  by_cases hnil : err = .nil
  · subst hnil
    rw [unwrapChain_nil_inv h n l hc]
    exact ⟨false, by simp [HasTrace], by simp⟩
  · have hAs := errorsAs_chain h fuel err l (unwrapChain_mono h n err l fuel hc hfuel)
    rcases hf : firstTraced h l with _ | a
    · refine ⟨false, by simp [HasTrace, hnil, hAs, hf], ?_⟩
      simp only [Bool.false_eq_true, false_iff, not_exists, not_and]
      intro a E ha hE
      have := firstTraced_none h l hf a ha
      rw [isTraced_of_lookup h a E hE] at this
      simp at this
    · obtain ⟨ha, hta, _⟩ := firstTraced_some h a l hf
      obtain ⟨E, hE⟩ := lookup_of_isTraced h a hta
      refine ⟨E.stack.isSome, by simp [HasTrace, hnil, hAs, hf, hE], ?_⟩
      constructor
      · intro hs
        refine ⟨a, E, ha, hE, ?_⟩
        intro hnone
        rw [hnone] at hs
        simp at hs
      · rintro ⟨a', E', ha', hE', hs'⟩
        have hf' := firstTraced_of_count h a' l ha' (isTraced_of_lookup h a' E' hE') hinv
        rw [hf] at hf'
        simp only [Option.some.injEq] at hf'
        subst hf'
        rw [hE] at hE'
        simp only [Option.some.injEq, Obj.traced.injEq] at hE'
        subst hE'
        exact Option.isSome_iff_ne_none.2 hs'

theorem HasTrace_iff_witness :
    unwrapChain sampleHeap 4 (.ptr 2) = some [.ptr 2, .ptr 1, .ptr 0] ∧
    ∃ b, HasTrace sampleHeap 4 (.ptr 2) = .ok b ∧
      (b = true ↔ ∃ a E, ErrVal.ptr a ∈ [ErrVal.ptr 2, .ptr 1, .ptr 0] ∧
        sampleHeap[a]? = some (.traced E) ∧ E.stack ≠ none) :=
  ⟨by decide,
   HasTrace_iff sampleHeap 4 4 (.ptr 2) [.ptr 2, .ptr 1, .ptr 0] (by decide) (by decide)
     (by decide)⟩

/-- C9: when `w` wraps the Traced Error `E` (at address `a`) in outer layers that each
unwrap to the next and are not Traced Errors themselves, `GetTrace(w)` returns `E` itself and
leaves the heap, hence the wrapped error, stack and entries of `E`, unchanged. -/
theorem GetTrace_through_layers (h : Heap) (n fuel : Nat) (w : ErrVal)
    (layers rest : List ErrVal) (a : Nat) (E : Error)
    (hc : unwrapChain h n w = some (layers ++ .ptr a :: rest)) (hfuel : n ≤ fuel)
    (hlayers : ∀ x ∈ layers, isTraced h x = false) (hE : h[a]? = some (.traced E)) :
    GetTrace h fuel w = .ok (h, some a) :=
  GetTrace_firstTraced h n fuel w _ a hc hfuel
    (firstTraced_after_layers h a rest layers hlayers (isTraced_of_lookup h a E hE))

theorem GetTrace_through_layers_witness :
    unwrapChain sampleHeap 4 (.ptr 2) = some ([.ptr 2] ++ .ptr 1 :: [.ptr 0]) ∧
    GetTrace sampleHeap 4 (.ptr 2) = .ok (sampleHeap, some 1) :=
  ⟨by decide,
   GetTrace_through_layers sampleHeap 4 4 (.ptr 2) [.ptr 2] [.ptr 0] 1
     { error := .ptr 0, extraData := some [⟨"k", "v"⟩], stack := some [⟨7⟩] }
     (by decide) (by decide) (by decide) (by decide)⟩

/-- C10 as stated fails: a Traced Error is a node of its own unwrap chain, yet `es.Is(es)`
is false, because the loop starts at the wrapped error. -/
theorem Is_self_false :
    unwrapChain sampleHeap 4 (.ptr 1) = some [.ptr 1, .ptr 0] ∧
    Error.Is sampleHeap 4 (some 1) (.ptr 1) = .ok false := by
  decide

/-- C10, amended: for a Traced Error `es` (at address `a`) whose wrapped error has a defined
unwrap chain (finite, every error of it a non-nil pointer: no typed nil `*Error`, no value of
an uncomparable type) and for every `target`, of whatever type, `es.Is(target)` returns, and
it is true exactly when `target` is, by identity, a node of the unwrap chain of the error
that `es` wraps (the chain below `es`; `es` itself is not compared); it is false for a nil
target and for the nil receiver. -/
theorem Is_iff_below (h : Heap) (n fuel : Nat) (a : Nat) (E : Error) (l : List ErrVal)
    (target : ErrVal)
    (hE : h[a]? = some (.traced E)) (hc : unwrapChain h n E.error = some l) (hfuel : n ≤ fuel) :
    (∃ b, Error.Is h fuel (some a) target = .ok b ∧ (b = true ↔ target ∈ l)) ∧
    Error.Is h fuel (some a) .nil = .ok false ∧
    Error.Is h fuel none target = .ok false := by
  refine ⟨?_, by simp [Error.Is], by simp [Error.Is]⟩
  by_cases htgt : target = .nil
  · subst htgt
    refine ⟨false, by simp [Error.Is], ?_⟩
    simp only [Bool.false_eq_true, false_iff]
    intro hm
    obtain ⟨b, _, hb, _⟩ := unwrapChain_mem h n E.error l hc _ hm
    simp at hb
  · refine ⟨decide (target ∈ l), ?_, by simp⟩
    simp only [Error.Is, htgt, if_false, hE]
    exact isLoop_chain h target htgt fuel E.error l (unwrapChain_mono h n E.error l fuel hc hfuel)

theorem Is_iff_below_witness :
    unwrapChain sampleHeap 4 (.ptr 0) = some [.ptr 0] ∧
    ((∃ b, Error.Is sampleHeap 4 (some 1) (.ptr 0) = .ok b ∧
        (b = true ↔ ErrVal.ptr 0 ∈ [ErrVal.ptr 0])) ∧
      Error.Is sampleHeap 4 (some 1) .nil = .ok false ∧
      Error.Is sampleHeap 4 none (.ptr 0) = .ok false) :=
  ⟨by decide,
   Is_iff_below sampleHeap 4 4 1
     { error := .ptr 0, extraData := some [⟨"k", "v"⟩], stack := some [⟨7⟩] } [.ptr 0] (.ptr 0)
     (by decide) (by decide) (by decide)⟩

/-- C3 as stated fails: for an error whose chain holds a Traced Error under an outer layer,
`Wrap` works on that Traced Error and the text of the outer layer is lost: the text of
`err` is `outer: root`, the text after the two wraps is `b: a: root`. -/
theorem Wrap_twice_drops_outer_text :
    errorText sampleHeap 9 (.ptr 2) = .ok "outer: root" ∧
    wrapTwiceText sampleHeap sampleCallers 9 (.ptr 2) "a" "b" = .ok "b: a: root" := by
  decide

/-- C3, amended: for a non-nil error `err` with text `t` whose chain holds no Traced Error,
or which is itself the first Traced Error of its chain, `Wrap(Wrap(err, a), b).Error()` is
`b + ": " + a + ": " + t`. -/
theorem Wrap_twice_text (h : Heap) (callers : List Nat) (n fuel f : Nat) (err : ErrVal)
    (l : List ErrVal) (a b t : String)
    (hne : err ≠ .nil) (hc : unwrapChain h n err = some l) (hfuel : n + 3 ≤ fuel)
    (hf : f + 6 ≤ fuel) (hcap : 3 < callers.length) (ht : errorText h f err = .ok t)
    (hA : ∀ p, firstTraced h l = some p → err = .ptr p) :
    wrapTwiceText h callers fuel err a b = .ok (b ++ ": " ++ a ++ ": " ++ t) := by
  obtain ⟨h1, p1, l1, hw1, hc1, ht1, htx1⟩ :=
    Wrap_text_step h callers n fuel f err l a none t hne hc (by omega) hcap ht hA
  obtain ⟨rest, hl1⟩ := chain_head_mem h1 (n + 3) p1 l1 hc1
  have hA1 : ∀ p, firstTraced h1 l1 = some p → ErrVal.ptr p1 = .ptr p := by
    intro p hp
    rw [hl1, firstTraced_head h1 p1 rest ht1] at hp
    simp only [Option.some.injEq] at hp
    rw [hp]
  obtain ⟨h2, p2, l2, hw2, _, _, htx2⟩ :=
    Wrap_text_step h1 callers (n + 3) fuel (f + 3) (.ptr p1) l1 b none (a ++ ": " ++ t)
      (by simp) hc1 hfuel hcap htx1 hA1
  have hfin := errorText_mono h2 (f + 3 + 3) (.ptr p2) _ fuel htx2 (by omega)
  simp only [wrapTwiceText, hw1, toErr, hw2, hfin]
  simp [String.append_assoc]

theorem Wrap_twice_text_witness :
    unwrapChain sampleHeap 2 (.ptr 0) = some [.ptr 0] ∧
    errorText sampleHeap 1 (.ptr 0) = .ok "root" ∧
    wrapTwiceText sampleHeap sampleCallers 7 (.ptr 0) "a" "b" =
      .ok ("b" ++ ": " ++ "a" ++ ": " ++ "root") :=
  ⟨by decide, by decide,
   Wrap_twice_text sampleHeap sampleCallers 2 7 1 (.ptr 0) [.ptr 0] "a" "b" "root"
     (by decide) (by decide) (by decide) (by decide) (by decide) (by decide) (by decide)⟩

/-- C5 as stated fails: `Trace` on an error whose chain holds a Traced Error under an outer
layer returns that Traced Error, whose text is `root`, while the text of `err` is
`outer: root`. -/
theorem Trace_drops_outer_text :
    errorText sampleHeap 4 (.ptr 2) = .ok "outer: root" ∧
    traceText sampleHeap sampleCallers 4 (.ptr 2) none = .ok "root" := by
  decide

/-- C5, amended: for a non-nil error `err` with text `t`, `Trace(err, xs...).Error()` is `t`
when `err` is itself the first Traced Error of its chain, or the chain holds no Traced Error
and its first stack-carrying error, if any, is `err` itself (the new Traced Error then
wraps `err`). -/
theorem Trace_keeps_text (h : Heap) (callers : List Nat) (n fuel f : Nat) (err : ErrVal)
    (l : List ErrVal) (xs : kvpList) (t : String)
    (hne : err ≠ .nil) (hc : unwrapChain h n err = some l) (hfuel : n ≤ fuel)
    (hf : f + 1 ≤ fuel) (hcap : 3 < callers.length) (ht : errorText h f err = .ok t)
    (hA : ∀ p, firstTraced h l = some p → err = .ptr p)
    (hB : ∀ s, l.find? (isStackTracer h) = some s → firstTraced h l = none → s = err) :
    traceText h callers fuel err xs = .ok t := by
  obtain ⟨k, rfl⟩ : ∃ k, fuel = k + 1 := ⟨fuel - 1, by omega⟩
  have htk : errorText h k err = .ok t := errorText_mono h f err t k ht (by omega)
  have hag : ∀ (o : Obj) (b : Nat), ErrVal.ptr b ∈ l → (h ++ [o])[b]? = h[b]? := by
    intro o b hb
    obtain ⟨b', o', hb', ho'⟩ := unwrapChain_mem h n err l hc _ hb
    simp only [ErrVal.ptr.injEq] at hb'
    subst hb'
    exact getElem?_append_old h _ b (lookup_lt h b o' ho')
  rcases hft : firstTraced h l with _ | p
  · rcases hfind : l.find? (isStackTracer h) with _ | s
    · obtain ⟨s, hs⟩ := sliceFrom1_MarshalStack callers hcap
      have hw := Trace_fresh h callers n (k + 1) err l xs (some s) hne hc hfuel hfind hs
      simp only [traceText, hw, toErr]
      rw [text_after h _ h.length n k (Error.mk err xs (some s)) l hc (hag _)
        (getElem?_append_new h _ 0)]
      exact htk
    · have hse := hB s hfind hft
      subst hse
      obtain ⟨_, hst⟩ := mem_of_find h l s hfind
      have hsn : s ≠ .nilError := by
        rintro rfl
        cases n <;> simp [unwrapChain] at hc
      obtain ⟨st, hcs⟩ := callStackTrace_of_tracer h s hsn hst
      have hw := Trace_synth h callers n (k + 1) s s l xs st hne hc hfuel hft hfind hcs
      simp only [traceText, hw, toErr]
      rw [text_after h _ h.length n k (Error.mk s (goAppend none xs) (framesOf st)) l hc (hag _)
        (getElem?_append_new h _ 0)]
      exact htk
  · have hep := hA p hft
    subst hep
    obtain ⟨_, hta, _⟩ := firstTraced_some h p l hft
    obtain ⟨E, hE⟩ := lookup_of_isTraced h p hta
    have hw := Trace_firstTraced h callers n (k + 1) (.ptr p) l p E xs hc hfuel hft hE
    simp only [traceText, hw, toErr]
    have hsl : ∀ b, ErrVal.ptr b ∈ l → SameLinks h
        (h.set p (.traced { E with extraData := goAppend E.extraData xs })) b := by
      intro b _
      by_cases hba : b = p
      · subst hba
        exact Or.inr ⟨E, _, hE, getElem?_set_same h b _ (lookup_lt h b _ hE), rfl⟩
      · exact Or.inl (getElem?_set_other h p b _ hba)
    rw [errorText_congr h _ (k + 1) n (.ptr p) l hc hsl]
    exact errorText_mono h f _ t (k + 1) ht (by omega)

theorem Trace_keeps_text_witness :
    unwrapChain sampleHeap 3 (.ptr 1) = some [.ptr 1, .ptr 0] ∧
    errorText sampleHeap 2 (.ptr 1) = .ok "root" ∧
    traceText sampleHeap sampleCallers 3 (.ptr 1) (some [⟨"k2", "v2"⟩]) = .ok "root" :=
  ⟨by decide, by decide,
   Trace_keeps_text sampleHeap sampleCallers 3 3 2 (.ptr 1) [.ptr 1, .ptr 0]
     (some [⟨"k2", "v2"⟩]) "root" (by decide) (by decide) (by decide) (by decide) (by decide)
     (by decide) (by decide) (by decide)⟩

/-- C8 as stated fails: `Trace` on the zero-valued Traced Error returns that same instance,
whose stack is nil, and `HasTrace` of the result is false. -/
theorem HasTrace_false_after_Trace :
    Trace zeroHeap sampleCallers 2 (.ptr 0) none = .ok (zeroHeap, some 0) ∧
    hasTraceAfterTrace zeroHeap sampleCallers 2 (.ptr 0) none = .ok false := by
  decide

/-- C8, amended: for a non-nil error `err`, `HasTrace(Trace(err, xs...))` is true provided
the Traced Error already in the chain of `err`, if any, has a non-nil stack, and otherwise
the first foreign stack trace in the chain, if any, has at least one frame. -/
theorem HasTrace_after_Trace (h : Heap) (callers : List Nat) (n fuel : Nat) (err : ErrVal)
    (l : List ErrVal) (xs : kvpList)
    (hne : err ≠ .nil) (hc : unwrapChain h n err = some l) (hfuel : n ≤ fuel)
    (hcap : 3 < callers.length)
    (hstack : ∀ a E, firstTraced h l = some a → h[a]? = some (.traced E) → E.stack ≠ none)
    (hforeign : ∀ s st, firstTraced h l = none → l.find? (isStackTracer h) = some s →
      callStackTrace h s = .ok st → elems st ≠ []) :
    hasTraceAfterTrace h callers fuel err xs = .ok true := by
  have hpos : 1 ≤ fuel := le_trans (fuel_pos_of_chain h n err l hc) hfuel
  rcases hft : firstTraced h l with _ | p
  · rcases hfind : l.find? (isStackTracer h) with _ | s
    · obtain ⟨s, hs⟩ := sliceFrom1_MarshalStack callers hcap
      have hw := Trace_fresh h callers n fuel err l xs (some s) hne hc hfuel hfind hs
      simp only [hasTraceAfterTrace, hw, toErr]
      rw [HasTrace_head _ fuel h.length (Error.mk err xs (some s)) (getElem?_append_new h _ 0) hpos]
      rfl
    · obtain ⟨hmem, hst⟩ := mem_of_find h l s hfind
      obtain ⟨b, _, rfl, _⟩ := unwrapChain_mem h n err l hc s hmem
      obtain ⟨st, hcs⟩ := callStackTrace_of_tracer h (.ptr b) (by simp) hst
      have hw := Trace_synth h callers n fuel err (.ptr b) l xs st hne hc hfuel hft hfind hcs
      simp only [hasTraceAfterTrace, hw, toErr]
      rw [HasTrace_head _ fuel h.length (Error.mk (.ptr b) (goAppend none xs) (framesOf st))
        (getElem?_append_new h _ 0) hpos]
      simp only [framesOf_isSome st (hforeign _ st hft hfind hcs)]
  · obtain ⟨_, hta, _⟩ := firstTraced_some h p l hft
    obtain ⟨E, hE⟩ := lookup_of_isTraced h p hta
    have hw := Trace_firstTraced h callers n fuel err l p E xs hc hfuel hft hE
    simp only [hasTraceAfterTrace, hw, toErr]
    rw [HasTrace_head _ fuel p _ (getElem?_set_same h p _ (lookup_lt h p _ hE)) hpos]
    simp only [Option.isSome_iff_ne_none.2 (hstack p E hft hE)]

theorem HasTrace_after_Trace_witness :
    unwrapChain sampleHeap 4 (.ptr 2) = some [.ptr 2, .ptr 1, .ptr 0] ∧
    hasTraceAfterTrace sampleHeap sampleCallers 4 (.ptr 2) none = .ok true :=
  ⟨by decide,
   HasTrace_after_Trace sampleHeap sampleCallers 4 4 (.ptr 2) [.ptr 2, .ptr 1, .ptr 0] none
     (by decide) (by decide) (by decide) (by decide)
     (by
       intro a E hf hE
       have ha : a = 1 := by
         have : firstTraced sampleHeap [.ptr 2, .ptr 1, .ptr 0] = some 1 := by decide
         rw [this] at hf
         exact (Option.some.inj hf).symm
       subst ha
       have : E = { error := .ptr 0, extraData := some [⟨"k", "v"⟩], stack := some [⟨7⟩] } := by
         have h1 : sampleHeap[1]? = some (.traced
             { error := .ptr 0, extraData := some [⟨"k", "v"⟩], stack := some [⟨7⟩] }) := by decide
         rw [h1] at hE
         simpa using hE.symm
       subst this
       simp)
     (by
       intro s st hf
       have : firstTraced sampleHeap [.ptr 2, .ptr 1, .ptr 0] = some 1 := by decide
       rw [this] at hf
       simp at hf)⟩

/-- C6: starting from a non-nil error whose chain holds at most one Traced Error, after any
sequence of calls of Trace and Wrap, with any layers that are not Traced Errors wrapped
around the error between the calls, the chain of the error held has at most one Traced
Error, and the chain of every error that Trace or Wrap returned has exactly one; and in
every such state Trace and Wrap do return a Traced Error, given enough fuel and a call stack
that reaches their caller. -/
theorem one_traced_per_chain (h0 : Heap) (e0 : ErrVal) (hne : e0 ≠ .nil)
    (hinv0 : AtMostOneTraced h0 e0) (ret : Bool) (h : Heap) (e : ErrVal)
    (hr : Reach h0 e0 ret h e) :
    AtMostOneTraced h e ∧ (ret = true → OneTraced h e) ∧
    ∃ fuel0, ∀ (fuel : Nat) (callers : List Nat) (m : String) (xs : kvpList),
      fuel0 ≤ fuel → 3 < callers.length →
      (∃ h' a, Trace h callers fuel e xs = .ok (h', some a) ∧ OneTraced h' (.ptr a)) ∧
      (∃ h' a, Wrap h callers fuel e m xs = .ok (h', some a) ∧ OneTraced h' (.ptr a)) := by
  obtain ⟨hne', hinv, hone⟩ := Reach_inv h0 e0 hne hinv0 ret h e hr
  refine ⟨hinv, hone, ?_⟩
  obtain ⟨n, l, hc, hcnt⟩ := hinv
  refine ⟨n, ?_⟩
  intro fuel callers m xs hfuel hcap
  constructor
  · rcases Trace_step h callers n fuel e l xs hne' hc hfuel hcnt with
      ⟨h', a, hT, l', hc', hcnt'⟩ | ⟨_, hshort⟩
    · exact ⟨h', a, hT, _, l', hc', hcnt'⟩
    · omega
  · rcases Wrap_step h callers n fuel e l m xs hne' hc hfuel hcnt with
      ⟨h', a, hW, l', hc', hcnt'⟩ | ⟨_, hshort⟩
    · exact ⟨h', a, hW, _, l', hc', hcnt'⟩
    · omega

theorem one_traced_per_chain_witness :
    AtMostOneTraced sampleHeap (.ptr 1) ∧ (true = true → OneTraced sampleHeap (.ptr 1)) ∧
    ∃ fuel0, ∀ (fuel : Nat) (callers : List Nat) (m : String) (xs : kvpList),
      fuel0 ≤ fuel → 3 < callers.length →
      (∃ h' a, Trace sampleHeap callers fuel (.ptr 1) xs = .ok (h', some a) ∧
        OneTraced h' (.ptr a)) ∧
      (∃ h' a, Wrap sampleHeap callers fuel (.ptr 1) m xs = .ok (h', some a) ∧
        OneTraced h' (.ptr a)) :=
  one_traced_per_chain sampleHeap (.ptr 2) (by decide)
    ⟨4, [.ptr 2, .ptr 1, .ptr 0], by decide, by decide⟩ true sampleHeap (.ptr 1)
    (Reach.trace false sampleHeap (.ptr 2) sampleCallers 4 none sampleHeap (some 1)
      Reach.start (by decide))

/-- C11: for a frame whose location does not resolve (`runtime.FuncForPC` returns nil for
its `PC()`), `Line()` is 0, `File()` is `unknown` and `Name()` is `unknown`; the three
methods are total functions, so none of them panics. -/
theorem unresolved_frame_sentinels (rt : FuncTable) (f : PCFrame) (hnone : rt f.PC = none) :
    f.Line rt = 0 ∧ f.File rt = "unknown" ∧ f.Name rt = "unknown" := by
  simp [PCFrame.Line, PCFrame.File, PCFrame.Name, hnone]

theorem unresolved_frame_sentinels_witness :
    sampleTable (PCFrame.mk 1).PC = none ∧
    (PCFrame.mk 1).Line sampleTable = 0 ∧ (PCFrame.mk 1).File sampleTable = "unknown" ∧
      (PCFrame.mk 1).Name sampleTable = "unknown" :=
  ⟨rfl, unresolved_frame_sentinels sampleTable (PCFrame.mk 1) rfl⟩

/-- C12 as stated fails: `Trace` called with an empty, non-nil list of entries on an
untraced error builds a Traced Error without any entry whose structured form still has
the field `extra`, with an empty array. -/
theorem extra_field_without_entries :
    traceLogFields plainHeap sampleTable sampleCallers 3 (.ptr 0) (some []) =
      .ok [.str "error" "plain",
           .frames "stack" [⟨"unknown", "unknown", 0⟩, ⟨"unknown", "unknown", 0⟩],
           .objects "extra" []] := by
  decide

/-- C12, amended: the structured form of a Traced Error (whose wrapped error has a text)
has a field `extra` exactly when its list of entries is non-nil, which is the case whenever
it has at least one entry; the field lists the entries as single-key objects in insertion
order (an empty non-nil list gives an empty array). -/
theorem extra_field_iff_non_nil (h : Heap) (rt : FuncTable) (fuel a : Nat) (E : Error)
    (t : String) (hE : h[a]? = some (.traced E)) (ht : errorText h fuel E.error = .ok t) :
    ∃ fields, Error.MarshalZerologObject h rt fuel (some a) = .ok fields ∧
      ((∃ f ∈ fields, f.key = "extra") ↔ E.extraData ≠ none) ∧
      (∀ f ∈ fields, f.key = "extra" →
        f = .objects "extra" ((elems E.extraData).map (fun v => (v.Key, v.Value)))) ∧
      (elems E.extraData ≠ [] →
        LogField.objects "extra" ((elems E.extraData).map (fun v => (v.Key, v.Value))) ∈ fields) := by
  by_cases hx : E.extraData = none
  · refine ⟨[LogField.str "error" t,
      LogField.frames "stack" (MarshallableStack.MarshalZerologArray rt E.stack)],
      by simp [Error.MarshalZerologObject, hE, ht, hx], ?_, ?_, ?_⟩
    · simp [hx, LogField.key]
    · simp [LogField.key]
    · simp [hx, elems]
  · refine ⟨[LogField.str "error" t,
      LogField.frames "stack" (MarshallableStack.MarshalZerologArray rt E.stack),
      LogField.objects "extra" (kvpList.MarshalZerologArray E.extraData)],
      by simp [Error.MarshalZerologObject, hE, ht, hx], ?_, ?_, ?_⟩
    · simp [hx, LogField.key]
    · simp [LogField.key, kvpList.MarshalZerologArray]
    · simp [kvpList.MarshalZerologArray]

theorem extra_field_iff_non_nil_witness :
    errorText sampleHeap 2 (.ptr 0) = .ok "root" ∧
    ∃ fields, Error.MarshalZerologObject sampleHeap sampleTable 2 (some 1) = .ok fields ∧
      ((∃ f ∈ fields, f.key = "extra") ↔ (some [(⟨"k", "v"⟩ : ErrorKVP)] : kvpList) ≠ none) ∧
      (∀ f ∈ fields, f.key = "extra" →
        f = .objects "extra"
          ((elems (some [(⟨"k", "v"⟩ : ErrorKVP)])).map (fun v => (v.Key, v.Value)))) ∧
      (elems (some [(⟨"k", "v"⟩ : ErrorKVP)]) ≠ [] →
        LogField.objects "extra"
          ((elems (some [(⟨"k", "v"⟩ : ErrorKVP)])).map (fun v => (v.Key, v.Value))) ∈ fields) :=
  ⟨by decide,
   extra_field_iff_non_nil sampleHeap sampleTable 2 1
     { error := .ptr 0, extraData := some [⟨"k", "v"⟩], stack := some [⟨7⟩] } "root"
     (by decide) (by decide)⟩

/-- C13: for a Traced Error `es`, `TopLine()` is the empty string when the stack is nil or
empty, and otherwise `File()` of the first frame, then `:`, then the decimal `Line()` of
that frame. -/
theorem TopLine_spec (h : Heap) (rt : FuncTable) (a : Nat) (E : Error)
    (hE : h[a]? = some (.traced E)) :
    Error.TopLine h rt (some a) =
      .ok (match elems E.stack with
           | [] => ""
           | f :: _ => f.File rt ++ ":" ++ strconvItoa (f.Line rt)) := by
  unfold Error.TopLine
  simp only [hE]
  rcases hs : elems E.stack with _ | ⟨f, rest⟩ <;> simp

theorem TopLine_spec_witness :
    Error.TopLine sampleHeap sampleTable (some 1) = .ok ("main.go" ++ ":" ++ "42") ∧
    Error.TopLine zeroHeap sampleTable (some 0) = .ok "" :=
  ⟨TopLine_spec sampleHeap sampleTable 1
     { error := .ptr 0, extraData := some [⟨"k", "v"⟩], stack := some [⟨7⟩] } (by decide),
   by decide⟩

/-- C14: `MarshalString()` returns the lines `Name() in File():Line()` of the frames, in
stack order, joined by single newlines; for the nil and for the empty stack it is the
empty string. -/
theorem MarshalString_joined (rt : FuncTable) (m : MarshallableStack) :
    MarshallableStack.MarshalString rt m =
        .ok (String.intercalate "\n" ((elems m).map (frameLine rt))) ∧
    MarshallableStack.MarshalString rt none = .ok "" ∧
    MarshallableStack.MarshalString rt (some []) = .ok "" := by
  refine ⟨?_, rfl, rfl⟩
  unfold MarshallableStack.MarshalString
  rcases hm : elems m with _ | ⟨f, fs⟩
  · rfl
  · have hget : (elems m)[0]? = some f := by simp [hm]
    have htail := marshalStringLoop_tail rt m fs [f] ("" ++ frameLine rt f) (by simp [hm])
      (by simp)
    simp only [List.length_singleton] at htail
    simp only [List.length_cons, marshalStringLoop, MarshallableStack.MarshalStringFrame, hget,
      Nat.lt_irrefl, if_false, Nat.zero_add]
    rw [show ("" ++ (f.Name rt ++ " in " ++ f.File rt ++ ":" ++ strconvItoa (f.Line rt))) =
      "" ++ frameLine rt f from rfl, htail]
    simp [String.intercalate, intercalate_go_eq_foldl, List.foldl_map]

/-- C15 fails on the code.  `Trace(nil)` returns the nil pointer; held in a variable of
type `error` it is the typed nil, which is not equal to nil, and `Wrap` of it panics on
`sTrace.error`.  And with an empty capture both `Trace` and `Wrap` panic on
`MarshalStack()[1:]` for an error without Traced Error and stack trace in its chain. -/
theorem Wrap_and_Trace_panic :
    Trace zeroHeap sampleCallers 1 .nil none = .ok (zeroHeap, none) ∧
    toErr none ≠ ErrVal.nil ∧
    Wrap zeroHeap sampleCallers 1 (toErr none) "m" none = .error .panic ∧
    MarshalStack [101, 102, 103] = [] ∧
    Trace plainHeap [101, 102, 103] 1 (.ptr 0) none = .error .panic ∧
    Wrap plainHeap [101, 102, 103] 1 (.ptr 0) "m" none = .error .panic := by
  decide

/-- C16 as stated fails: the error `errors.Wrap(error(stack.Trace(nil)), "ctx")` exposes a
raw stack trace of two locations and holds no Traced Error, yet `GetTrace` returns nil for
it, and no new Traced Error: `errors.As` finds the typed nil `*Error` at the end of the
chain and `GetTrace` returns what `errors.As` found, as it does for the typed nil itself. -/
theorem GetTrace_nil_over_typed_nil :
    GetTrace nilLayerHeap 6 (.ptr 1) = .ok (nilLayerHeap, none) ∧
    isStackTracer nilLayerHeap (.ptr 1) = true ∧
    callStackTrace nilLayerHeap (.ptr 1) = .ok (some [11, 12]) ∧
    isTraced nilLayerHeap (.ptr 1) = false ∧ isTraced nilLayerHeap (.ptr 0) = false ∧
    GetTrace nilLayerHeap 6 .nilError = .ok (nilLayerHeap, none) := by
  decide

/-- C16, amended: for an error with a defined unwrap chain (finite, every error of it a
non-nil pointer, so no typed nil `*Error`, to an error of a plain type).  On a chain without
Traced Error whose first error exposing a raw stack trace is `s`, `GetTrace` leaves the old
heap alone and returns a new Traced Error, around `s`, with nil entries and one frame per
location of the stack trace of `s`, in the same order; and on every such chain `GetTrace`
returns, nil exactly when no error of the chain is a stack tracer (a Traced Error or an
error exposing a raw stack trace). -/
theorem GetTrace_foreign_and_nil (h : Heap) (n fuel : Nat) (err : ErrVal) (l : List ErrVal)
    (hc : unwrapChain h n err = some l) (hfuel : n ≤ fuel) :
    (tracedCount h l = 0 → ∀ s, l.find? (isStackTracer h) = some s →
      ∃ st, callStackTrace h s = .ok st ∧
        GetTrace h fuel err =
          .ok (h ++ [Obj.traced (Error.mk s none (framesOf st))], some h.length) ∧
        elems (framesOf st) = (elems st).map PCFrame.mk) ∧
    ∃ h' p, GetTrace h fuel err = .ok (h', p) ∧
      (p = none ↔ ∀ x ∈ l, isStackTracer h x = false) := by
  have hg := GetTrace_chain h fuel err l (unwrapChain_mono h n err l fuel hc hfuel)
  constructor
  · intro hz s hs
    obtain ⟨hmem, hst⟩ := mem_of_find h l s hs
    obtain ⟨b, _, rfl, _⟩ := unwrapChain_mem h n err l hc s hmem
    obtain ⟨st, hcs⟩ := callStackTrace_of_tracer h (.ptr b) (by simp) hst
    rw [hs, firstTraced_none_of_count h l hz] at hg
    simp only [hcs] at hg
    exact ⟨st, hcs, hg, framesOf_elems st⟩
  · rcases hfind : l.find? (isStackTracer h) with _ | s
    · rw [hfind] at hg
      refine ⟨h, none, hg, ?_⟩
      simp only [true_iff]
      intro x hx
      have := List.find?_eq_none.1 hfind x hx
      simpa using this
    · obtain ⟨hmem, hst⟩ := mem_of_find h l s hfind
      have hnot : ¬ ∀ x ∈ l, isStackTracer h x = false := by
        intro hall
        rw [hall s hmem] at hst
        simp at hst
      rw [hfind] at hg
      rcases hf : firstTraced h l with _ | a
      · obtain ⟨b, _, rfl, _⟩ := unwrapChain_mem h n err l hc s hmem
        obtain ⟨st, hcs⟩ := callStackTrace_of_tracer h (.ptr b) (by simp) hst
        rw [hf] at hg
        simp only [hcs] at hg
        exact ⟨_, some h.length, hg, by simp [hnot]⟩
      · rw [hf] at hg
        exact ⟨h, some a, hg, by simp [hnot]⟩

theorem GetTrace_foreign_and_nil_witness :
    unwrapChain foreignHeap 2 (.ptr 1) = some [.ptr 1, .ptr 0] ∧
    tracedCount foreignHeap [.ptr 1, .ptr 0] = 0 ∧
    List.find? (isStackTracer foreignHeap) [.ptr 1, .ptr 0] = some (.ptr 0) ∧
    ∃ st, callStackTrace foreignHeap (.ptr 0) = .ok st ∧
      GetTrace foreignHeap 2 (.ptr 1) =
        .ok (foreignHeap ++ [Obj.traced (Error.mk (.ptr 0) none (framesOf st))],
          some foreignHeap.length) ∧
      elems (framesOf st) = (elems st).map PCFrame.mk :=
  ⟨by decide, by decide, by decide,
   (GetTrace_foreign_and_nil foreignHeap 2 2 (.ptr 1) [.ptr 1, .ptr 0] (by decide)
     (by decide)).1 (by decide) (.ptr 0) (by decide)⟩

/-- C17 as stated fails: the sum `offset+2` is a Go `int` and wraps.  For the largest `int`
the claim has the frames that remain after skipping `2^63 + 1` locations, none on a call
stack of three, while `runtime.Callers` gets the skip `-2^63 + 1`, skips nothing, and the
call returns three frames. -/
theorem GetStackProgramCounter_wraps :
    wrapInt ((2 : Int) ^ 63 - 1 + 2) = -2 ^ 63 + 1 ∧
    GetStackProgramCounter [101, 102, 103] (2 ^ 63 - 1) = [⟨101⟩, ⟨102⟩, ⟨103⟩] ∧
    min 32 ([101, 102, 103].length - ((2 : Int) ^ 63 - 1 + 2).toNat) = 0 := by
  decide

/-- C17, amended: for every call stack and every `int` offset whose sum `offset+2` does not
overflow, `GetStackProgramCounter(offset)` returns at most 32 frames: frame `i` is the
location `offset + 2 + i` of the call stack (a sum below 0 skips nothing), for `i` below 32
and below what is left of the call stack, and there is no other frame. -/
theorem GetStackProgramCounter_spec (callers : List Nat) (offset : Int)
    (hlo : -2 ^ 63 ≤ offset) (hhi : offset + 2 < 2 ^ 63) :
    (GetStackProgramCounter callers offset).length ≤ 32 ∧
    (GetStackProgramCounter callers offset).length =
      min 32 (callers.length - (offset + 2).toNat) ∧
    ∀ i, (GetStackProgramCounter callers offset)[i]? =
      if i < 32 then (callers[(offset + 2).toNat + i]?).map PCFrame.mk else none := by
  have hw : wrapInt (offset + 2) = offset + 2 := by
    unfold wrapInt
    rw [Int.emod_eq_of_lt (by omega) (by omega)]
    omega
  unfold GetStackProgramCounter runtimeCallers maxDepth
  rw [hw]
  refine ⟨?_, ?_, ?_⟩
  · simp only [List.length_map, List.length_take]
    omega
  · simp only [List.length_map, List.length_take, List.length_drop]
  · intro i
    by_cases hi : i < 32
    · simp [hi, List.getElem?_take, List.getElem?_drop]
    · simp only [hi, if_false]
      apply List.getElem?_eq_none
      simp only [List.length_map, List.length_take]
      omega

theorem GetStackProgramCounter_spec_witness :
    -2 ^ 63 ≤ (1 : Int) ∧ (1 : Int) + 2 < 2 ^ 63 ∧
    (GetStackProgramCounter sampleCallers 1).length ≤ 32 ∧
    (GetStackProgramCounter sampleCallers 1).length =
      min 32 (sampleCallers.length - ((1 : Int) + 2).toNat) ∧
    ∀ i, (GetStackProgramCounter sampleCallers 1)[i]? =
      if i < 32 then (sampleCallers[((1 : Int) + 2).toNat + i]?).map PCFrame.mk else none :=
  ⟨by decide, by decide, GetStackProgramCounter_spec sampleCallers 1 (by decide) (by decide)⟩

/-- C18 fails on the code: the export `StackTrace()` writes `PC()`, one less than the
frame, and the conversion `PCFrame(frame)` of `GetTrace` takes that value as a frame, so
the frame that comes back has a `PC()` one below the `PC()` of the frame that went out.
The length is kept. -/
theorem reimport_shifts_PC :
    (PCFrame.mk 10).PC = 9 ∧ (PCFrame.mk 20).PC = 19 ∧
    MarshallableStack.StackTrace (some [⟨10⟩, ⟨20⟩]) = some [9, 19] ∧
    reimport (some [⟨10⟩, ⟨20⟩]) = some [⟨9⟩, ⟨19⟩] ∧
    (PCFrame.mk 9).PC = 8 ∧ (PCFrame.mk 19).PC = 18 := by
  decide

/-- C19 as stated fails: for the error `errors.Join` makes around a Traced Error with a
stack, `HasTrace` is true, `errors.As` having walked `Unwrap() []error`, while `GetTrace`,
which follows `Unwrap() error` only, returns nil. -/
theorem HasTrace_true_GetTrace_nil :
    HasTrace joinHeap 4 (.ptr 2) = .ok true ∧
    GetTrace joinHeap 4 (.ptr 2) = .ok (joinHeap, none) := by
  decide

/-- C19, amended: for an error `err` with a defined unwrap chain (finite, every error of it
a non-nil pointer to an error of a plain type: no `As` method, no `Unwrap() []error`), when
`HasTrace(err)` is true, `GetTrace(err)` returns, without touching the heap, a non-nil
Traced Error whose stack is non-nil; it is the instance `errors.As` found for `HasTrace`,
the first Traced Error of the chain of `err`. -/
theorem HasTrace_GetTrace_agree (h : Heap) (n fuel fuel' : Nat) (err : ErrVal)
    (l : List ErrVal) (hc : unwrapChain h n err = some l)
    (hfuel : fuel ≤ fuel') (hT : HasTrace h fuel err = .ok true) :
    ∃ a E, GetTrace h fuel' err = .ok (h, some a) ∧ h[a]? = some (.traced E) ∧
      E.stack ≠ none ∧ errorsAs h fuel err = .ok (some (some a)) ∧
      firstTraced h l = some a := by
  obtain ⟨a, E, hAs, hE, hs⟩ := HasTrace_true_inv h fuel err hT
  refine ⟨a, E, ?_, hE, hs, hAs, ?_⟩
  · exact GetTrace_mono h fuel err _ fuel' n l hc
      (GetTrace_of_errorsAs h fuel err a n l hc hAs) hfuel
  · have h1 := errorsAs_chain h (max n fuel) err l
      (unwrapChain_mono h n err l _ hc (le_max_left _ _))
    have h2 := errorsAs_mono h fuel err _ (max n fuel) n l hc hAs (le_max_right _ _)
    rw [h1] at h2
    rcases hf : firstTraced h l with _ | b
    · simp [hf] at h2
    · simpa [hf] using h2

theorem HasTrace_GetTrace_agree_witness :
    unwrapChain sampleHeap 4 (.ptr 2) = some [.ptr 2, .ptr 1, .ptr 0] ∧
    HasTrace sampleHeap 3 (.ptr 2) = .ok true ∧
    ∃ a E, GetTrace sampleHeap 4 (.ptr 2) = .ok (sampleHeap, some a) ∧
      sampleHeap[a]? = some (.traced E) ∧ E.stack ≠ none ∧
      errorsAs sampleHeap 3 (.ptr 2) = .ok (some (some a)) ∧
      firstTraced sampleHeap [.ptr 2, .ptr 1, .ptr 0] = some a :=
  ⟨by decide, by decide,
   HasTrace_GetTrace_agree sampleHeap 4 3 4 (.ptr 2) [.ptr 2, .ptr 1, .ptr 0] (by decide)
     (by decide) (by decide)⟩

end Stack
